import Mathlib

/-!
Verification of the `weakheap` crate: a max-priority queue backed by a weak
heap (an array `data` plus one reverse bit per node in `bit`).  The Rust
source (`src/lib.rs`) is shallowly embedded below: `Vec<T>` becomes `List α`,
unchecked reads become `List.getD` with a default (every verified call is in
bounds), and the hole-based moves of `sift_up_push` become explicit
`List.set` writes.  All comparisons go through a `LinearOrder` on the
element type, mirroring the `T: Ord` bound.
-/

set_option maxHeartbeats 1000000

variable {α : Type} [LinearOrder α] [Inhabited α]

/-- Read `l[i]`, with a default for out-of-range `i` (the Rust code only
reads in bounds in the verified paths). -/
def getE (l : List α) (i : Nat) : α := l.getD i default

/-- Simultaneous swap of two positions, as in `ptr::swap`. -/
def swapL (l : List α) (i j : Nat) : List α := (l.set i (getE l j)).set j (getE l i)

/-- The reverse bit at node `i` read as the number `bit[i] as usize`. -/
def bval (bit : List Bool) (i : Nat) : Nat := if bit.getD i false then 1 else 0

/-- The climbing loop shared by `sift_up` and `sift_up_push`: starting from
`cur`, climb to the parent while the ancestor is above `start` and the
parity of `cur` matches the ancestor's reverse bit.  Returns the final
`cur`; the distinguished ancestor is its parent. -/
def dAncCur (bit : List Bool) (start cur : Nat) : Nat :=
  if h : start < cur / 2 ∧ cur % 2 = bval bit (cur / 2) then
    dAncCur bit start (cur / 2)
  else
    cur
termination_by cur
decreasing_by
  have h1 : 1 ≤ cur / 2 := Nat.lt_of_le_of_lt (Nat.zero_le start) h.1
  have h2 : cur ≠ 0 := by rintro rfl; simp at h1
  exact Nat.div_lt_self (Nat.pos_of_ne_zero h2) one_lt_two

/-- The distinguished ancestor of node `j` (with `start = 0`), found by the
bit-chasing walk of the source, not simply `j / 2`. -/
def dAnc (bit : List Bool) (j : Nat) : Nat := dAncCur bit 0 j / 2

theorem dAncCur_le (bit : List Bool) (start cur : Nat) : dAncCur bit start cur ≤ cur := by
  induction cur using Nat.strong_induction_on with
  | _ cur ih =>
    rw [dAncCur]
    split
    · rename_i h
      have h1 : 1 ≤ cur / 2 := Nat.lt_of_le_of_lt (Nat.zero_le start) h.1
      have h2 : cur ≠ 0 := by rintro rfl; simp at h1
      have h3 : cur / 2 < cur := Nat.div_lt_self (Nat.pos_of_ne_zero h2) one_lt_two
      exact le_trans (ih _ h3) (le_of_lt h3)
    · exact le_refl _

theorem one_le_dAncCur (bit : List Bool) (start cur : Nat) (h : 1 ≤ cur) :
    1 ≤ dAncCur bit start cur := by
  induction cur using Nat.strong_induction_on with
  | _ cur ih =>
    rw [dAncCur]
    split
    · rename_i hc
      have h1 : 1 ≤ cur / 2 := Nat.lt_of_le_of_lt (Nat.zero_le start) hc.1
      have h2 : cur ≠ 0 := by rintro rfl; simp at h1
      have h3 : cur / 2 < cur := Nat.div_lt_self (Nat.pos_of_ne_zero h2) one_lt_two
      exact ih _ h3 h1
    · exact h

/-- The walk only reads reverse bits strictly below its argument, so it is
unchanged when the two bit lists agree below `cur`. -/
theorem dAncCur_congr (b1 b2 : List Bool) (start cur : Nat)
    (h : ∀ i, i < cur → b1.getD i false = b2.getD i false) :
    dAncCur b1 start cur = dAncCur b2 start cur := by
  induction cur using Nat.strong_induction_on with
  | _ cur ih =>
    conv_lhs => rw [dAncCur]
    conv_rhs => rw [dAncCur]
    by_cases hc : start < cur / 2 ∧ cur % 2 = bval b1 (cur / 2)
    · have h1 : 1 ≤ cur / 2 := Nat.lt_of_le_of_lt (Nat.zero_le start) hc.1
      have h2 : cur ≠ 0 := by rintro rfl; simp at h1
      have h3 : cur / 2 < cur := Nat.div_lt_self (Nat.pos_of_ne_zero h2) one_lt_two
      have hb : bval b1 (cur / 2) = bval b2 (cur / 2) := by
        unfold bval; rw [h _ h3]
      rw [dif_pos hc,
        dif_pos (show start < cur / 2 ∧ cur % 2 = bval b2 (cur / 2) from ⟨hc.1, hb ▸ hc.2⟩)]
      exact ih _ h3 (fun i hi => h i (lt_trans hi h3))
    · rw [dif_neg hc]
      by_cases hc2 : start < cur / 2 ∧ cur % 2 = bval b2 (cur / 2)
      · exfalso
        have h1 : 1 ≤ cur / 2 := Nat.lt_of_le_of_lt (Nat.zero_le start) hc2.1
        have h2 : cur ≠ 0 := by rintro rfl; simp at h1
        have h3 : cur / 2 < cur := Nat.div_lt_self (Nat.pos_of_ne_zero h2) one_lt_two
        have hb : bval b1 (cur / 2) = bval b2 (cur / 2) := by
          unfold bval; rw [h _ h3]
        exact hc ⟨hc2.1, by rw [hb]; exact hc2.2⟩
      · rw [dif_neg hc2]

theorem dAnc_lt (bit : List Bool) (j : Nat) (h : 1 ≤ j) : dAnc bit j < j := by
  unfold dAnc
  have h1 := dAncCur_le bit 0 j
  have h2 := one_le_dAncCur bit 0 j h
  omega

/-- The weak heap: a value sequence and a reverse-bit sequence. -/
structure WeakHeap (α : Type) where
  data : List α
  bit : List Bool

namespace WeakHeap

/-- `WeakHeap::new()`: empty sequences. -/
def new : WeakHeap α := ⟨[], []⟩

/-- `WeakHeap::with_capacity(n)`: empty sequences (capacity is not modelled). -/
def with_capacity (_n : Nat) : WeakHeap α := ⟨[], []⟩

/-- `WeakHeap::len`. -/
def len (h : WeakHeap α) : Nat := h.data.length

/-- `WeakHeap::is_empty`. -/
def is_empty (h : WeakHeap α) : Bool := h.len == 0

/-- `WeakHeap::peek`: `self.data.get(0)`. -/
def peek (h : WeakHeap α) : Option α := h.data.head?

/-- `WeakHeap::sift_up(start, pos)`: climb to the distinguished ancestor and
do at most one conditional flip-and-swap.  Used only during bulk build. -/
def sift_up (h : WeakHeap α) (start pos : Nat) : WeakHeap α :=
  let len := h.data.length
  let ancestor := dAncCur h.bit start pos / 2
  if getE h.data ancestor < getE h.data pos then
    let bit' := if 2 * pos - 1 < len then h.bit.set pos (!(h.bit.getD pos false)) else h.bit
    ⟨swapL h.data ancestor pos, bit'⟩
  else
    h

/-- The iterative hole-climbing loop of `sift_up_push`.  State: the array
with the hole, the bits, the hole position `p` and the climb cursor `cur`
(they coincide at the top of the Rust loop).  `elt` is the carried element,
`pos` the original position (the source flips `bit[pos]`, the original
index, at each relocation), `len` the array length. -/
def supGo (start pos len : Nat) (elt : α) (d : List α) (bit : List Bool)
    (p cur : Nat) : List α × List Bool × Nat :=
  if hc : start < cur then
    let anc := dAncCur bit start cur / 2
    if getE d anc < elt then
      supGo start pos len elt (d.set p (getE d anc))
        (if 2 * pos - 1 < len then bit.set pos (!(bit.getD pos false)) else bit) anc anc
    else
      (d, bit, p)
  else
    (d, bit, p)
termination_by cur
decreasing_by
  have h1 := dAncCur_le bit start cur
  have h2 := one_le_dAncCur bit start cur (by omega)
  omega

/-- `WeakHeap::sift_up_push(start, pos)`: iterated hole-based sift toward
`start` after a single insertion; returns the new heap and the final
resting index (the `Hole` drop writes the carried element back). -/
def sift_up_push (h : WeakHeap α) (start pos : Nat) : WeakHeap α × Nat :=
  let len := h.data.length
  let elt := getE h.data pos
  let r := supGo start pos len elt h.data h.bit pos pos
  (⟨r.1.set r.2.2 elt, r.2.1⟩, r.2.2)

/-- Descent phase of `sift_down_range`: follow distinguished children
(`2*pos + bit[pos]`) while the target stays inside the window.  The
`0 < pos` guard is an invariant of every source call (`pos` starts at
`start.max 1` and only grows); it is made explicit for termination. -/
def sdrDescend (bit : List Bool) (e pos : Nat) : Nat :=
  if h : 0 < pos ∧ 2 * pos + bval bit pos < e then
    sdrDescend bit e (2 * pos + bval bit pos)
  else
    pos
termination_by e - pos
decreasing_by
  have : pos < 2 * pos + bval bit pos := by omega
  omega

/-- Ascent phase of `sift_down_range`: climb back from the deepest point,
comparing against `data[start]` and flip-swapping when the window root is
smaller. -/
def sdrAscend (start : Nat) (d : List α) (bit : List Bool) (pos : Nat) :
    List α × List Bool :=
  if h : start < pos then
    if getE d start < getE d pos then
      sdrAscend start (swapL d start pos) (bit.set pos (!(bit.getD pos false))) (pos / 2)
    else
      sdrAscend start d bit (pos / 2)
  else
    (d, bit)
termination_by pos
decreasing_by
  all_goals exact Nat.div_lt_self (Nat.lt_of_le_of_lt (Nat.zero_le start) h) one_lt_two

/-- `WeakHeap::sift_down_range(start, end)`: no-op when `end == 1`,
otherwise descend the distinguished-child chain from `start.max 1` and
ascend with one comparison per level. -/
def sift_down_range (h : WeakHeap α) (start e : Nat) : WeakHeap α :=
  if e = 1 then h
  else
    let pos := sdrDescend h.bit e (max start 1)
    let r := sdrAscend start h.data h.bit pos
    ⟨r.1, r.2⟩

/-- `WeakHeap::sift_down(pos)`. -/
def sift_down (h : WeakHeap α) (pos : Nat) : WeakHeap α :=
  sift_down_range h pos h.data.length

/-- The loop of `rebuild`, processing indices `n, n-1, ..., 1`. -/
def rebuildAux (h : WeakHeap α) (n : Nat) : WeakHeap α :=
  match n with
  | 0 => h
  | Nat.succ m => rebuildAux (sift_up h 0 (m + 1)) m

/-- `WeakHeap::rebuild`: `for n in (1..len).rev() { sift_up(0, n) }`. -/
def rebuild (h : WeakHeap α) : WeakHeap α := rebuildAux h (h.data.length - 1)

/-- `WeakHeap::rebuild_tail(start)`: sift each appended index up, assuming
`data[0..start]` is already a proper weak heap. -/
def rebuild_tail (h : WeakHeap α) (start : Nat) : WeakHeap α :=
  if start = h.data.length then h
  else (List.range' start (h.data.length - start)).foldl
    (fun acc i => (sift_up_push acc 0 i).1) h

/-- `From<Vec<T>> for WeakHeap<T>`: all bits false, then rebuild. -/
def fromVec (v : List α) : WeakHeap α :=
  rebuild ⟨v, List.replicate v.length false⟩

/-- `WeakHeap::push`: append with bit `false`, then sift up unless this was
the first element. -/
def push (h : WeakHeap α) (item : α) : WeakHeap α :=
  let old_len := h.data.length
  let h' : WeakHeap α := ⟨h.data ++ [item], h.bit ++ [false]⟩
  if old_len ≠ 0 then (sift_up_push h' 0 old_len).1 else h'

/-- `WeakHeap::pop`: drop the last bit, remove the last element; if any
remain, move it into slot 0 (returning the displaced maximum) and sift
down. -/
def pop (h : WeakHeap α) : Option α × WeakHeap α :=
  let bit' := h.bit.dropLast
  match h.data.getLast? with
  | none => (none, ⟨h.data, bit'⟩)
  | some last =>
    let d' := h.data.dropLast
    if d'.length ≠ 0 then
      (some (getE d' 0), sift_down ⟨d'.set 0 last, bit'⟩ 0)
    else
      (some last, ⟨d', bit'⟩)

/-- `WeakHeap::pushpop`. -/
def pushpop (h : WeakHeap α) (item : α) : α × WeakHeap α :=
  if h.data.length = 0 then (item, h)
  else if getE h.data 0 < item then (item, h)
  else (getE h.data 0, sift_down ⟨h.data.set 0 item, h.bit⟩ 0)

/-- The sorting loop of `into_sorted_vec`: while `end > 1`, decrement,
swap the maximum to the end, and restore the shrunken window. -/
def intoSortedAux (h : WeakHeap α) (e : Nat) : WeakHeap α :=
  if 2 ≤ e then
    intoSortedAux (sift_down_range ⟨swapL h.data 0 (e - 1), h.bit⟩ 0 (e - 1)) (e - 1)
  else h
termination_by e

/-- `WeakHeap::into_vec`: the underlying vector. -/
def into_vec (h : WeakHeap α) : List α := h.data

/-- `WeakHeap::into_sorted_vec`: destructive weak-heapsort, ascending. -/
def into_sorted_vec (h : WeakHeap α) : List α :=
  (intoSortedAux h h.data.length).into_vec

/-- `WeakHeap::append`: keep the larger operand as prefix, concatenate both
sequences, rebuild the tail; the drained operand is left empty.  Returns
(new self, new other). -/
def append (a b : WeakHeap α) : WeakHeap α × WeakHeap α :=
  let p := if a.data.length < b.data.length then (b, a) else (a, b)
  let start := p.1.data.length
  (rebuild_tail ⟨p.1.data ++ p.2.data, p.1.bit ++ p.2.bit⟩ start, (⟨[], []⟩ : WeakHeap α))

/-- `WeakHeap::append_vec`: same, but incoming bits are initialized false. -/
def append_vec (a : WeakHeap α) (other : List α) : WeakHeap α × List α :=
  let start := a.data.length
  (rebuild_tail ⟨a.data ++ other, a.bit ++ List.replicate other.length false⟩ start, [])

/-- `Extend<T> for WeakHeap<T>`: repeated push. -/
def extendList (h : WeakHeap α) (l : List α) : WeakHeap α :=
  l.foldl push h

/-- `WeakHeap::drain`: clear the bits, drain the data in storage order. -/
def drain (h : WeakHeap α) : List α × WeakHeap α :=
  (h.data, ⟨[], []⟩)

/-- `WeakHeap::clear`: drain and discard. -/
def clear (h : WeakHeap α) : WeakHeap α := (drain h).2

/-- Release of the mutable-peek handle (`Drop for WeakHeapPeekMut`): sift
down from the root iff the value was mutably touched. -/
def peekMutRelease (h : WeakHeap α) (sift : Bool) : WeakHeap α :=
  if sift then sift_down h 0 else h

end WeakHeap

-- Sanity checks: the concrete scenarios of the specification.

unseal dAncCur WeakHeap.supGo WeakHeap.sdrDescend WeakHeap.sdrAscend
  WeakHeap.intoSortedAux in
example :
    (WeakHeap.fromVec ([3, 2, 5, 1, 4] : List Int)).into_sorted_vec =
      [1, 2, 3, 4, 5] := by decide

unseal dAncCur WeakHeap.supGo in
example : ((WeakHeap.new.push (2 : Int)).push 1).peek = some 2 := by decide

unseal dAncCur WeakHeap.supGo in
example : (((WeakHeap.new.push (2 : Int)).push 1).push 3).peek = some 3 := by decide

unseal dAncCur WeakHeap.supGo WeakHeap.sdrDescend WeakHeap.sdrAscend in
example : (WeakHeap.fromVec ([4, 2] : List Int)).pop.1 = some 4 := by decide

unseal dAncCur WeakHeap.supGo WeakHeap.sdrDescend WeakHeap.sdrAscend in
example : ((WeakHeap.fromVec ([4, 2] : List Int)).pop.2).pop.1 = some 2 := by decide

example : ((WeakHeap.new : WeakHeap Int).pushpop 5).1 = 5 := by decide

set_option maxRecDepth 4000 in
unseal dAncCur WeakHeap.supGo WeakHeap.sdrDescend WeakHeap.sdrAscend
  WeakHeap.intoSortedAux in
example :
    (WeakHeap.fromVec ([7, 1, 4, 5, 3, 2, 2, 7, 6, 9, 1] : List Int)).into_sorted_vec =
      [1, 1, 2, 2, 3, 4, 5, 6, 7, 7, 9] := by decide

/-! ### Basic lemmas about `getD`, `set`, `swapL` -/

theorem gd_eq_getElem {β : Type} (l : List β) (i : Nat) (d : β) (h : i < l.length) :
    l.getD i d = l[i] := by
  rw [List.getD_eq_getElem?_getD, List.getElem?_eq_getElem h, Option.getD_some]

theorem gd_set_self {β : Type} (l : List β) (i : Nat) (v d : β) (h : i < l.length) :
    (l.set i v).getD i d = v := by
  rw [List.getD_eq_getElem?_getD, List.getElem?_set_self h, Option.getD_some]

theorem gd_set_ne {β : Type} (l : List β) (i j : Nat) (v d : β) (h : i ≠ j) :
    (l.set i v).getD j d = l.getD j d := by
  rw [List.getD_eq_getElem?_getD, List.getElem?_set_ne h, ← List.getD_eq_getElem?_getD]

theorem gd_append_left {β : Type} (l1 l2 : List β) (i : Nat) (d : β) (h : i < l1.length) :
    (l1 ++ l2).getD i d = l1.getD i d := by
  rw [List.getD_eq_getElem?_getD, List.getElem?_append_left h, ← List.getD_eq_getElem?_getD]

theorem gd_dropLast {β : Type} (l : List β) (i : Nat) (d : β) (h : i < l.length - 1) :
    l.dropLast.getD i d = l.getD i d := by
  rw [List.getD_eq_getElem?_getD, List.dropLast_eq_take, List.getElem?_take, if_pos h,
    ← List.getD_eq_getElem?_getD]

theorem gd_replicate {β : Type} (n i : Nat) (v d : β) :
    (List.replicate n v).getD i d = if i < n then v else d := by
  rw [List.getD_eq_getElem?_getD, List.getElem?_replicate]
  split <;> simp

theorem set_oob {β : Type} (l : List β) (i : Nat) (v : β) (h : l.length ≤ i) :
    l.set i v = l := List.set_eq_of_length_le h

theorem getE_eq_getElem (l : List α) (i : Nat) (h : i < l.length) :
    getE l i = l[i] := gd_eq_getElem l i default h

theorem getE_set_self (l : List α) (i : Nat) (v : α) (h : i < l.length) :
    getE (l.set i v) i = v := gd_set_self l i v default h

theorem getE_set_ne (l : List α) (i j : Nat) (v : α) (h : i ≠ j) :
    getE (l.set i v) j = getE l j := gd_set_ne l i j v default h

theorem set_getE_self (l : List α) (i : Nat) (h : i < l.length) :
    l.set i (getE l i) = l := by
  apply List.ext_getElem?
  intro n
  rw [List.getElem?_set]
  by_cases he : i = n
  · subst he
    rw [if_pos rfl, if_pos h, getE_eq_getElem l i h, List.getElem?_eq_getElem h]
  · rw [if_neg he]

@[simp] theorem length_swapL (l : List α) (i j : Nat) :
    (swapL l i j).length = l.length := by
  simp [swapL]

theorem getE_swapL_fst (l : List α) (i j : Nat) (hi : i < l.length) :
    getE (swapL l i j) i = getE l j := by
  unfold swapL
  by_cases hij : j = i
  · subst hij
    rw [getE_set_self _ _ _ (by simpa using hi)]
  · rw [getE_set_ne _ _ _ _ hij, getE_set_self _ _ _ hi]

theorem getE_swapL_snd (l : List α) (i j : Nat) (hj : j < l.length) :
    getE (swapL l i j) j = getE l i := by
  unfold swapL
  rw [getE_set_self _ _ _ (by simpa using hj)]

theorem getE_swapL_other (l : List α) (i j k : Nat) (hki : k ≠ i) (hkj : k ≠ j) :
    getE (swapL l i j) k = getE l k := by
  unfold swapL
  rw [getE_set_ne _ _ _ _ (fun h => hkj h.symm), getE_set_ne _ _ _ _ (fun h => hki h.symm)]

theorem count_set_getE [DecidableEq α] (l : List α) (i : Nat) (v a : α) (h : i < l.length) :
    List.count a (l.set i v) =
      (List.count a l - if getE l i = a then 1 else 0) + if v = a then 1 else 0 := by
  rw [List.count_set v a l i h, getE_eq_getElem l i h]
  simp [beq_iff_eq]

theorem swapL_perm (l : List α) (i j : Nat) (hi : i < l.length) (hj : j < l.length) :
    (swapL l i j).Perm l := by
  classical
  by_cases hij : i = j
  · subst hij
    unfold swapL
    rw [List.set_set, set_getE_self l i hi]
  · rw [List.perm_iff_count]
    intro a
    unfold swapL
    have hs : getE (l.set i (getE l j)) j = getE l j := getE_set_ne l i j _ hij
    rw [count_set_getE _ _ _ _ (by simpa using hj), hs, count_set_getE _ _ _ _ hi]
    have hc1 : getE l i = a → 1 ≤ List.count a l := by
      intro he
      rw [← he]
      exact List.count_pos_iff.mpr (by rw [getE_eq_getElem l i hi]; exact List.getElem_mem hi)
    have hc2 : getE l j = a → 1 ≤ List.count a l := by
      intro he
      rw [← he]
      exact List.count_pos_iff.mpr (by rw [getE_eq_getElem l j hj]; exact List.getElem_mem hj)
    by_cases h1 : getE l i = a <;> by_cases h2 : getE l j = a
    · have k1 := hc1 h1
      simp [h1, h2] <;> omega
    · have k1 := hc1 h1
      simp [h1, h2] <;> omega
    · have k2 := hc2 h2
      simp [h1, h2] <;> omega
    · simp [h1, h2] <;> omega

/-! ### The weak-heap ordering invariant -/

theorem bval_le_one (bit : List Bool) (i : Nat) : bval bit i ≤ 1 := by
  unfold bval; split <;> omega

theorem dAncCur_step (bit : List Bool) (start cur : Nat)
    (h : start < cur / 2 ∧ cur % 2 = bval bit (cur / 2)) :
    dAncCur bit start cur = dAncCur bit start (cur / 2) := by
  conv_lhs => rw [dAncCur]
  rw [dif_pos h]

theorem dAncCur_stop (bit : List Bool) (start cur : Nat)
    (h : ¬(start < cur / 2 ∧ cur % 2 = bval bit (cur / 2))) :
    dAncCur bit start cur = cur := by
  conv_lhs => rw [dAncCur]
  rw [dif_neg h]

/-- The ordering invariant on the window `[0, m)`: every non-root node in
the window is at most its distinguished ancestor.  It only depends on the
first `m` values and bits. -/
def PrefixInv (d : List α) (bit : List Bool) (m : Nat) : Prop :=
  ∀ j, j < m → 1 ≤ j → getE d j ≤ getE d (dAnc bit j)

instance (d : List α) (bit : List Bool) (m : Nat) : Decidable (PrefixInv d bit m) := by
  unfold PrefixInv
  exact Nat.decidableBallLT m _

/-- The full structural invariant: parallel lengths plus the ordering
invariant on the whole array. -/
def WHInv (h : WeakHeap α) : Prop :=
  h.data.length = h.bit.length ∧ PrefixInv h.data h.bit h.data.length

instance (h : WeakHeap α) : Decidable (WHInv h) := by
  unfold WHInv
  infer_instance

theorem prefixInv_le_root (d : List α) (bit : List Bool) (m : Nat)
    (hInv : PrefixInv d bit m) : ∀ j, j < m → getE d j ≤ getE d 0 := by
  intro j
  induction j using Nat.strong_induction_on with
  | _ j ih =>
    intro hj
    rcases Nat.eq_zero_or_pos j with rfl | hpos
    · exact le_refl _
    · have h1 := hInv j hj hpos
      have h2 := dAnc_lt bit j hpos
      exact le_trans h1 (ih _ h2 (lt_trans h2 hj))

theorem prefixInv_congr (d1 d2 : List α) (b1 b2 : List Bool) (m : Nat)
    (hd : ∀ i, i < m → getE d1 i = getE d2 i)
    (hb : ∀ i, i < m → b1.getD i false = b2.getD i false) :
    PrefixInv d1 b1 m → PrefixInv d2 b2 m := by
  intro hInv j hj h1
  have hAnc : dAnc b1 j = dAnc b2 j := by
    unfold dAnc
    rw [dAncCur_congr b1 b2 0 j (fun i hi => hb i (lt_trans hi hj))]
  have h2 := dAnc_lt b1 j h1
  rw [← hd j hj, ← hd (dAnc b2 j) (by rw [← hAnc]; exact lt_trans h2 hj), ← hAnc]
  exact hInv j hj h1

theorem prefixInv_mono (d : List α) (bit : List Bool) (m m' : Nat) (h : m' ≤ m) :
    PrefixInv d bit m → PrefixInv d bit m' :=
  fun hInv j hj h1 => hInv j (lt_of_lt_of_le hj h) h1

/-- Key combinatorial lemma: flipping the reverse bit at node `n` reroutes
the ancestor walk of a node `j > n` in exactly one of three ways: the walk
is unchanged and does not end at `n`; the new walk stops at `n` while the
old one continued through `n` (so the old result is `n`'s own result); or
symmetrically the old walk stopped at `n` and the new one continues with
`n`'s (unchanged) result. -/
theorem flip_cases (bit : List Bool) (n : Nat) (hn : 1 ≤ n) (hlen : n < bit.length)
    (j : Nat) (hj : n < j) :
    (dAncCur (bit.set n (!(bit.getD n false))) 0 j = dAncCur bit 0 j ∧
      dAncCur bit 0 j / 2 ≠ n) ∨
    (dAncCur (bit.set n (!(bit.getD n false))) 0 j / 2 = n ∧
      dAncCur bit 0 j = dAncCur bit 0 n) ∨
    (dAncCur bit 0 j / 2 = n ∧
      dAncCur (bit.set n (!(bit.getD n false))) 0 j = dAncCur bit 0 n) := by
  set bit' := bit.set n (!(bit.getD n false)) with hbit'
  have hb'n : bval bit' n = 1 - bval bit n := by
    unfold bval
    rw [hbit', gd_set_self bit n _ false hlen]
    rcases Bool.eq_false_or_eq_true (bit.getD n false) with hv | hv <;> rw [hv] <;> simp
  have hbelow : ∀ i, i < n → bit'.getD i false = bit.getD i false := by
    intro i hi
    rw [hbit', gd_set_ne bit n i _ false (by omega)]
  induction j using Nat.strong_induction_on with
  | _ j ih =>
    have hp1 : 1 ≤ j / 2 := by omega
    by_cases hpn : j / 2 = n
    · have hb'p : bval bit' (j / 2) = 1 - bval bit (j / 2) := by rw [hpn]; exact hb'n
      by_cases hcond : j % 2 = bval bit (j / 2)
      · -- old walk continues through n; new walk stops at j
        have hold : dAncCur bit 0 j = dAncCur bit 0 n := by
          rw [dAncCur_step bit 0 j ⟨by omega, hcond⟩, hpn]
        have hnew : dAncCur bit' 0 j = j := by
          apply dAncCur_stop
          rintro ⟨-, hc2⟩
          have := bval_le_one bit (j / 2)
          omega
        exact Or.inr (Or.inl ⟨by rw [hnew, hpn], hold⟩)
      · -- old walk stops at j; new walk continues through n
        have hold : dAncCur bit 0 j = j := by
          apply dAncCur_stop
          rintro ⟨-, hc2⟩
          exact hcond hc2
        have hnew : dAncCur bit' 0 j = dAncCur bit 0 n := by
          have hc2 : j % 2 = bval bit' (j / 2) := by
            have := bval_le_one bit (j / 2)
            have := bval_le_one bit' (j / 2)
            omega
          rw [dAncCur_step bit' 0 j ⟨by omega, hc2⟩, hpn]
          exact dAncCur_congr bit' bit 0 n (fun i hi => hbelow i hi)
        exact Or.inr (Or.inr ⟨by rw [hold, hpn], hnew⟩)
    · have hb'p : bval bit' (j / 2) = bval bit (j / 2) := by
        unfold bval
        rw [hbit', gd_set_ne bit n (j / 2) _ false (fun h => hpn h.symm)]
      by_cases hcond : j % 2 = bval bit (j / 2)
      · rw [dAncCur_step bit 0 j ⟨by omega, hcond⟩,
          dAncCur_step bit' 0 j ⟨by omega, by rw [hb'p]; exact hcond⟩]
        by_cases hpgt : n < j / 2
        · exact ih (j / 2) (by omega) hpgt
        · -- the parent is below n: both walks agree and end strictly below n
          have hlt : j / 2 < n := by omega
          have heq : dAncCur bit' 0 (j / 2) = dAncCur bit 0 (j / 2) :=
            dAncCur_congr bit' bit 0 (j / 2) (fun i hi => hbelow i (by omega))
          left
          refine ⟨heq, ?_⟩
          have := dAncCur_le bit 0 (j / 2)
          omega
      · rw [dAncCur_stop bit 0 j (by rintro ⟨-, hc2⟩; exact hcond hc2),
          dAncCur_stop bit' 0 j (by rintro ⟨-, hc2⟩; rw [hb'p] at hc2; exact hcond hc2)]
        exact Or.inl ⟨rfl, hpn⟩

/-! ### Correctness of `sift_up` / `rebuild` (bulk construction) -/

/-- One `sift_up(0, n)` call during bulk construction: if every node above
`n` already satisfies the invariant, afterwards every node from `n` on
does, and the data is only permuted. -/
theorem sift_up_step (d : List α) (bit : List Bool) (n : Nat)
    (hn : 1 ≤ n) (hlen : n < d.length) (hbl : bit.length = d.length)
    (hS : ∀ j, n < j → j < d.length → getE d j ≤ getE d (dAnc bit j)) :
    (WeakHeap.sift_up (⟨d, bit⟩ : WeakHeap α) 0 n).data.length = d.length ∧
    (WeakHeap.sift_up (⟨d, bit⟩ : WeakHeap α) 0 n).bit.length = bit.length ∧
    (WeakHeap.sift_up (⟨d, bit⟩ : WeakHeap α) 0 n).data.Perm d ∧
    (∀ j, n ≤ j → j < d.length →
      getE (WeakHeap.sift_up (⟨d, bit⟩ : WeakHeap α) 0 n).data j ≤
        getE (WeakHeap.sift_up (⟨d, bit⟩ : WeakHeap α) 0 n).data
          (dAnc (WeakHeap.sift_up (⟨d, bit⟩ : WeakHeap α) 0 n).bit j)) := by
  have hanc_lt : dAncCur bit 0 n / 2 < n := dAnc_lt bit n hn
  by_cases hcmp : getE d (dAncCur bit 0 n / 2) < getE d n
  · -- swap branch
    have hres : WeakHeap.sift_up (⟨d, bit⟩ : WeakHeap α) 0 n =
        ⟨swapL d (dAncCur bit 0 n / 2) n,
          if 2 * n - 1 < d.length then bit.set n (!(bit.getD n false)) else bit⟩ := by
      simp only [WeakHeap.sift_up, hcmp, if_pos]
    set anc := dAncCur bit 0 n / 2 with hancdef
    set d' := swapL d anc n with hd'
    set bit' := if 2 * n - 1 < d.length then bit.set n (!(bit.getD n false)) else bit with hb'
    rw [hres]
    have hancn : anc ≠ n := by omega
    have hlen' : (d' : List α).length = d.length := by rw [hd']; simp
    have hvanc : getE d' anc = getE d n := getE_swapL_fst d anc n (by omega)
    have hvn : getE d' n = getE d anc := getE_swapL_snd d anc n hlen
    have hvother : ∀ k, k ≠ anc → k ≠ n → getE d' k = getE d k := fun k h1 h2 =>
      getE_swapL_other d anc n k h1 h2
    have hbbelow : ∀ i, i < n → bit'.getD i false = bit.getD i false := by
      intro i hi
      rw [hb']
      split
      · exact gd_set_ne bit n i _ false (by omega)
      · rfl
    refine ⟨hlen', ?_, swapL_perm d anc n (by omega) hlen, ?_⟩
    · rw [hb']; split <;> simp
    · intro j hj hjlen
      rcases Nat.eq_or_lt_of_le hj with rfl | hjgt
      · -- the node n itself: its walk is unchanged, its new value is the old
        -- ancestor value
        have hAnc' : dAnc bit' n = anc := by
          unfold dAnc
          rw [dAncCur_congr bit' bit 0 n (fun i hi => hbbelow i hi)]
        rw [hvn, hAnc', hvanc]
        exact le_of_lt hcmp
      · -- nodes strictly above n
        have hdj : getE d' j = getE d j := hvother j (by omega) (by omega)
        have key : ∀ D, dAnc bit' j = D → D ≠ n → getE d j ≤ getE d D →
            getE d' j ≤ getE d' (dAnc bit' j) := by
          intro D hD hDn hle
          rw [hdj, hD]
          by_cases hDanc : D = anc
          · subst hDanc
            rw [hvanc]
            exact le_trans hle (le_of_lt hcmp)
          · rw [hvother D hDanc hDn]
            exact hle
        by_cases hflip : 2 * n - 1 < d.length
        · have hb'set : bit' = bit.set n (!(bit.getD n false)) := by rw [hb', if_pos hflip]
          have hnb : n < bit.length := by omega
          rcases flip_cases bit n hn hnb j hjgt with ⟨heq, hne⟩ | ⟨h1, h2⟩ | ⟨h1, h2⟩
          · rw [← hb'set] at heq
            exact key (dAnc bit j) (by unfold dAnc; rw [heq]) hne (hS j hjgt hjlen)
          · -- new walk stops at n, old went through: old ancestor is `anc`
            rw [← hb'set] at h1
            have hDold : dAnc bit j = anc := by unfold dAnc; rw [h2]
            have hD' : dAnc bit' j = n := h1
            rw [hdj, hD', hvn]
            have := hS j hjgt hjlen
            rw [hDold] at this
            exact this
          · -- old walk stopped at n, new goes through to `anc`
            rw [← hb'set] at h2
            have hDold : dAnc bit j = n := h1
            have hD' : dAnc bit' j = anc := by unfold dAnc; rw [h2]
            rw [hdj, hD', hvanc]
            have := hS j hjgt hjlen
            rw [hDold] at this
            exact this
        · -- no flip: `j < len ≤ 2n - 1` forces the walk to stay below `n`
          have hb'id : bit' = bit := by rw [hb', if_neg hflip]
          have hDle : dAnc bit j < n := by
            have h1 := dAncCur_le bit 0 j
            unfold dAnc
            omega
          exact key (dAnc bit j) (by rw [hb'id]) (by omega) (hS j hjgt hjlen)
  · -- no-swap branch: nothing changes, and the comparison gives node n's bound
    have hres : WeakHeap.sift_up (⟨d, bit⟩ : WeakHeap α) 0 n = ⟨d, bit⟩ := by
      simp [WeakHeap.sift_up, hcmp]
    rw [hres]
    refine ⟨rfl, rfl, List.Perm.refl d, ?_⟩
    intro j hj hjlen
    rcases Nat.eq_or_lt_of_le hj with rfl | hjgt
    · exact not_lt.mp hcmp
    · exact hS j hjgt hjlen

/-- The construction loop `for n in (1..len).rev()` establishes the
invariant on the whole array. -/
theorem rebuildAux_spec : ∀ (n : Nat) (d : List α) (bit : List Bool),
    bit.length = d.length → n < d.length →
    (∀ j, n < j → j < d.length → getE d j ≤ getE d (dAnc bit j)) →
    (WeakHeap.rebuildAux (⟨d, bit⟩ : WeakHeap α) n).data.length = d.length ∧
    (WeakHeap.rebuildAux (⟨d, bit⟩ : WeakHeap α) n).bit.length = bit.length ∧
    (WeakHeap.rebuildAux (⟨d, bit⟩ : WeakHeap α) n).data.Perm d ∧
    WHInv (WeakHeap.rebuildAux (⟨d, bit⟩ : WeakHeap α) n) := by
  intro n
  induction n with
  | zero =>
    intro d bit hbl hlen hS
    refine ⟨rfl, rfl, List.Perm.refl d, hbl.symm, ?_⟩
    intro j hj h1
    exact hS j h1 hj
  | succ m ih =>
    intro d bit hbl hlen hS
    obtain ⟨hl1, hl2, hperm, hsuf⟩ := sift_up_step d bit (m + 1) (by omega) hlen hbl hS
    set r := WeakHeap.sift_up (⟨d, bit⟩ : WeakHeap α) 0 (m + 1) with hr
    have hr' : (⟨r.data, r.bit⟩ : WeakHeap α) = r := rfl
    have step : WeakHeap.rebuildAux (⟨d, bit⟩ : WeakHeap α) (m + 1) =
        WeakHeap.rebuildAux (⟨r.data, r.bit⟩ : WeakHeap α) m := by
      rw [hr']
      rfl
    obtain ⟨k1, k2, k3, k4⟩ := ih r.data r.bit (by omega) (by omega)
      (fun j hj hjlen => hsuf j (by omega) (by omega))
    rw [step]
    exact ⟨by omega, by omega, List.Perm.trans k3 hperm, k4⟩

/-- `From<Vec<T>>`: the built heap is a permutation of the input and
satisfies the structural invariant. -/
theorem fromVec_spec (v : List α) :
    WHInv (WeakHeap.fromVec v) ∧ (WeakHeap.fromVec v).data.Perm v ∧
    (WeakHeap.fromVec v).data.length = v.length ∧
    (WeakHeap.fromVec v).bit.length = v.length := by
  rcases Nat.eq_zero_or_pos v.length with hv | hv
  · have : v = [] := List.length_eq_zero.mp hv
    subst this
    refine ⟨⟨rfl, ?_⟩, List.Perm.refl _, rfl, rfl⟩
    intro j hj h1
    simp [WeakHeap.fromVec, WeakHeap.rebuild, WeakHeap.rebuildAux] at hj
  · have hstep := rebuildAux_spec (v.length - 1) v (List.replicate v.length false)
      (by simp) (by omega) (fun j hj hjlen => by omega)
    have hfv : WeakHeap.fromVec v =
        WeakHeap.rebuildAux (⟨v, List.replicate v.length false⟩ : WeakHeap α)
          (v.length - 1) := by
      simp [WeakHeap.fromVec, WeakHeap.rebuild]
    rw [hfv]
    obtain ⟨k1, k2, k3, k4⟩ := hstep
    exact ⟨k4, k3, k1, by simpa using k2⟩

/-! ### Correctness of `sift_up_push` (single insertion) -/

/-- Postcondition of the `sift_up_push` climbing loop, relative to the
original bits `bit0` and carried element `elt`: sizes are preserved, the
final hole is at most `pos`, bits are untouched except at `pos`, filling
the hole yields a permutation of filling the entry hole, nothing above
`pos` moved, and the filled array satisfies the invariant up to `pos`. -/
def supPost (pos L : Nat) (elt : α) (bit0 : List Bool) (d : List α) (b : List Bool)
    (cur : Nat) (r : List α × List Bool × Nat) : Prop :=
  r.1.length = L ∧
  r.2.1.length = b.length ∧
  r.2.2 ≤ pos ∧
  (∀ i, i ≠ pos → r.2.1.getD i false = bit0.getD i false) ∧
  (r.1.set r.2.2 elt).Perm (d.set cur elt) ∧
  (∀ j, pos < j → getE r.1 j = getE d j) ∧
  (∀ j, 1 ≤ j → j ≤ pos →
    getE (r.1.set r.2.2 elt) j ≤ getE (r.1.set r.2.2 elt) (dAnc bit0 j))

theorem supGo_spec (pos : Nat) (elt : α) (bit0 : List Bool) (L : Nat) :
    ∀ (cur : Nat) (d : List α) (b : List Bool),
    d.length = L → pos < L → cur ≤ pos →
    (∀ i, i ≠ pos → b.getD i false = bit0.getD i false) →
    (∀ j, 1 ≤ j → j ≤ pos → j ≠ cur → dAnc bit0 j ≠ cur →
      getE d j ≤ getE d (dAnc bit0 j)) →
    (∀ j, 1 ≤ j → j ≤ pos → j ≠ cur → dAnc bit0 j = cur →
      getE d j ≤ getE d cur ∧ getE d j ≤ elt ∧
        (1 ≤ cur → getE d j ≤ getE d (dAnc bit0 cur))) →
    supPost pos L elt bit0 d b cur (WeakHeap.supGo 0 pos L elt d b cur cur) := by
  intro cur
  induction cur using Nat.strong_induction_on with
  | _ cur ih =>
    intro d b hdL hposL hcurpos hb hJ1 hJ2
    have hcurL : cur < L := by omega
    by_cases hc : 0 < cur
    · -- the climb step: the walk agrees with the original-bit walk
      have hANC : dAncCur b 0 cur / 2 = dAnc bit0 cur := by
        unfold dAnc
        rw [dAncCur_congr b bit0 0 cur (fun i hi => hb i (by omega))]
      have hanc_lt : dAnc bit0 cur < cur := dAnc_lt bit0 cur hc
      by_cases hcmp : getE d (dAncCur b 0 cur / 2) < elt
      · -- relocate: the ancestor value drops into the hole, hole climbs
        rw [WeakHeap.supGo, dif_pos hc, if_pos hcmp, hANC]
        rw [hANC] at hcmp
        set anc := dAnc bit0 cur with hancdef
        set d' := d.set cur (getE d anc) with hd'
        set b' := (if 2 * pos - 1 < L then b.set pos (!(b.getD pos false)) else b) with hb'
        have hd'len : d'.length = L := by rw [hd']; simp [hdL]
        have hd'get : ∀ k, k ≠ cur → getE d' k = getE d k := by
          intro k hk
          rw [hd']
          exact getE_set_ne d cur k _ (fun hx => hk hx.symm)
        have hd'cur : getE d' cur = getE d anc := by
          rw [hd']
          exact getE_set_self d cur _ (by omega)
        have hb'frame : ∀ i, i ≠ pos → b'.getD i false = bit0.getD i false := by
          intro i hi
          rw [hb']
          split
          · rw [gd_set_ne b pos i _ false (fun hx => hi hx.symm)]
            exact hb i hi
          · exact hb i hi
        -- the next state satisfies the loop invariant at the ancestor
        have hJ1' : ∀ j, 1 ≤ j → j ≤ pos → j ≠ anc → dAnc bit0 j ≠ anc →
            getE d' j ≤ getE d' (dAnc bit0 j) := by
          intro j hj1 hjp hjanc hdanc
          by_cases hjcur : j = cur
          · exact absurd (hjcur ▸ hancdef.symm) hdanc
          · rw [hd'get j hjcur]
            by_cases hdj : dAnc bit0 j = cur
            · rw [hdj, hd'cur]
              exact (hJ2 j hj1 hjp hjcur hdj).2.2 hc
            · rw [hd'get _ hdj]
              exact hJ1 j hj1 hjp hjcur hdj
        have hJ2' : ∀ j, 1 ≤ j → j ≤ pos → j ≠ anc → dAnc bit0 j = anc →
            getE d' j ≤ getE d' anc ∧ getE d' j ≤ elt ∧
              (1 ≤ anc → getE d' j ≤ getE d' (dAnc bit0 anc)) := by
          intro j hj1 hjp hjanc hdanc
          have hancne : anc ≠ cur := by omega
          have hJ1anc : 1 ≤ anc → getE d anc ≤ getE d (dAnc bit0 anc) := by
            intro hanc1
            exact hJ1 anc hanc1 (by omega) hancne
              (by have := dAnc_lt bit0 anc hanc1; omega)
          by_cases hjcur : j = cur
          · subst hjcur
            refine ⟨by rw [hd'cur, hd'get anc hancne], le_of_lt (by rw [hd'cur]; exact hcmp), ?_⟩
            intro hanc1
            rw [hd'cur, hd'get (dAnc bit0 anc) (by have := dAnc_lt bit0 anc hanc1; omega)]
            exact hJ1anc hanc1
          · have hle : getE d j ≤ getE d anc := by
              have h0 := hJ1 j hj1 hjp hjcur (by rw [hdanc]; exact hancne)
              rw [hdanc] at h0
              exact h0
            refine ⟨?_, le_trans (by rw [hd'get j hjcur]) (le_trans hle (le_of_lt hcmp)), ?_⟩
            · rw [hd'get j hjcur, hd'get anc hancne]
              exact hle
            · intro hanc1
              rw [hd'get j hjcur, hd'get (dAnc bit0 anc)
                (by have := dAnc_lt bit0 anc hanc1; omega)]
              exact le_trans hle (hJ1anc hanc1)
        obtain ⟨k1, k2, k3, k4, k5, k6, k7⟩ :=
          ih anc (by omega) d' b' hd'len hposL (by omega) hb'frame hJ1' hJ2'
        refine ⟨k1, ?_, k3, k4, ?_, ?_, k7⟩
        · rw [k2, hb']
          split <;> simp
        · refine k5.trans ?_
          have heq : d'.set anc elt = swapL (d.set cur elt) cur anc := by
            rw [hd']
            unfold swapL
            rw [getE_set_ne d cur anc elt (by omega),
              getE_set_self d cur elt (by omega), List.set_set]
          rw [heq]
          exact swapL_perm (d.set cur elt) cur anc (by simp; omega) (by simp; omega)
        · intro j hj
          rw [k6 j hj, hd'get j (by omega)]
      · -- the ancestor is at least the carried element: the loop stops here
        rw [WeakHeap.supGo, dif_pos hc, if_neg hcmp]
        rw [hANC] at hcmp
        refine ⟨hdL, rfl, hcurpos, hb, List.Perm.refl _, fun j hj => rfl, ?_⟩
        intro j hj1 hjp
        have hsetlen : (d.set cur elt).length = L := by simp [hdL]
        have hgA : ∀ k, k ≠ cur → getE (d.set cur elt) k = getE d k := fun k hk =>
          getE_set_ne d cur k elt (fun hx => hk hx.symm)
        have hgcur : getE (d.set cur elt) cur = elt := getE_set_self d cur elt (by omega)
        by_cases hjcur : j = cur
        · subst hjcur
          rw [hgcur, hgA _ (by have := dAnc_lt bit0 j hj1; omega)]
          exact not_lt.mp hcmp
        · by_cases hdj : dAnc bit0 j = cur
          · rw [hgA j hjcur, hdj, hgcur]
            exact (hJ2 j hj1 hjp hjcur hdj).2.1
          · rw [hgA j hjcur, hgA _ hdj]
            exact hJ1 j hj1 hjp hjcur hdj
    · -- cur = 0: fill the hole at the root
      have hcur0 : cur = 0 := by omega
      rw [WeakHeap.supGo, dif_neg hc]
      subst hcur0
      refine ⟨hdL, rfl, Nat.zero_le pos, hb, List.Perm.refl _, fun j hj => rfl, ?_⟩
      intro j hj1 hjp
      have hgA : ∀ k, k ≠ 0 → getE (d.set 0 elt) k = getE d k := fun k hk =>
        getE_set_ne d 0 k elt (fun hx => hk hx.symm)
      have hg0 : getE (d.set 0 elt) 0 = elt := getE_set_self d 0 elt (by omega)
      by_cases hdj : dAnc bit0 j = 0
      · rw [hgA j (by omega), hdj, hg0]
        exact (hJ2 j hj1 hjp (by omega) hdj).2.1
      · rw [hgA j (by omega), hgA _ hdj]
        exact hJ1 j hj1 hjp (by omega) hdj

/-- Specification of `sift_up_push(0, pos)`: given the invariant below
`pos`, it extends it through `pos`, permutes the data, and touches no
value above `pos` and no bit other than `bit[pos]`. -/
theorem sift_up_push_spec (d : List α) (bit : List Bool) (pos : Nat)
    (hpos : pos < d.length) (hP : PrefixInv d bit pos) :
    (WeakHeap.sift_up_push (⟨d, bit⟩ : WeakHeap α) 0 pos).1.data.length = d.length ∧
    (WeakHeap.sift_up_push (⟨d, bit⟩ : WeakHeap α) 0 pos).1.bit.length = bit.length ∧
    (WeakHeap.sift_up_push (⟨d, bit⟩ : WeakHeap α) 0 pos).1.data.Perm d ∧
    (∀ j, pos < j →
      getE (WeakHeap.sift_up_push (⟨d, bit⟩ : WeakHeap α) 0 pos).1.data j = getE d j) ∧
    (∀ i, i ≠ pos →
      (WeakHeap.sift_up_push (⟨d, bit⟩ : WeakHeap α) 0 pos).1.bit.getD i false =
        bit.getD i false) ∧
    PrefixInv (WeakHeap.sift_up_push (⟨d, bit⟩ : WeakHeap α) 0 pos).1.data
      (WeakHeap.sift_up_push (⟨d, bit⟩ : WeakHeap α) 0 pos).1.bit (pos + 1) := by
  have hmain := supGo_spec pos (getE d pos) bit d.length pos d bit rfl hpos (le_refl pos)
    (fun i _ => rfl)
    (fun j hj1 hjp hjcur _ => hP j (by omega) hj1)
    (fun j hj1 hjp hjcur hdanc => by
      have := dAnc_lt bit j hj1
      omega)
  obtain ⟨k1, k2, k3, k4, k5, k6, k7⟩ := hmain
  have hres : WeakHeap.sift_up_push (⟨d, bit⟩ : WeakHeap α) 0 pos =
      (⟨(WeakHeap.supGo 0 pos d.length (getE d pos) d bit pos pos).1.set
          (WeakHeap.supGo 0 pos d.length (getE d pos) d bit pos pos).2.2 (getE d pos),
        (WeakHeap.supGo 0 pos d.length (getE d pos) d bit pos pos).2.1⟩,
       (WeakHeap.supGo 0 pos d.length (getE d pos) d bit pos pos).2.2) := rfl
  rw [hres]
  set r := WeakHeap.supGo 0 pos d.length (getE d pos) d bit pos pos with hrdef
  refine ⟨by simp [k1], k2, ?_, ?_, k4, ?_⟩
  · refine k5.trans ?_
    rw [set_getE_self d pos hpos]
  · intro j hj
    rw [getE_set_ne r.1 r.2.2 j (getE d pos) (by omega)]
    exact k6 j hj
  · intro j hj hj1
    have hAncEq : dAnc r.2.1 j = dAnc bit j := by
      unfold dAnc
      rw [dAncCur_congr r.2.1 bit 0 j (fun i hi => k4 i (by omega))]
    rw [hAncEq]
    exact k7 j hj1 (by omega)

/-- Specification of `push`. -/
theorem push_spec (h : WeakHeap α) (x : α) (hInv : WHInv h) :
    WHInv (h.push x) ∧ (h.push x).data.Perm (h.data ++ [x]) ∧
    (h.push x).data.length = h.data.length + 1 ∧
    (h.push x).bit.length = h.bit.length + 1 := by
  obtain ⟨hbl, hP⟩ := hInv
  by_cases h0 : h.data.length = 0
  · have hres : h.push x = ⟨h.data ++ [x], h.bit ++ [false]⟩ := by
      simp [WeakHeap.push, h0]
    rw [hres]
    refine ⟨⟨by simp [hbl], ?_⟩, List.Perm.refl _, by simp, by simp⟩
    intro j hj hj1
    simp [h0] at hj
    omega
  · have hres : h.push x =
        (WeakHeap.sift_up_push (⟨h.data ++ [x], h.bit ++ [false]⟩ : WeakHeap α) 0
          h.data.length).1 := by
      simp [WeakHeap.push, h0]
    have hP' : PrefixInv (h.data ++ [x]) (h.bit ++ [false]) h.data.length := by
      refine prefixInv_congr h.data (h.data ++ [x]) h.bit (h.bit ++ [false]) h.data.length
        ?_ ?_ hP
      · intro i hi
        rw [getE, getE, gd_append_left h.data [x] i default hi]
      · intro i hi
        rw [gd_append_left h.bit [false] i false (by omega)]
    obtain ⟨k1, k2, k3, k4, k5, k6⟩ := sift_up_push_spec (h.data ++ [x]) (h.bit ++ [false])
      h.data.length (by simp) hP'
    rw [hres]
    refine ⟨⟨?_, ?_⟩, by simpa using k3, by simp [k1], by simp [k2]⟩
    · rw [k1, k2]
      simp [hbl]
    · have : (h.data ++ [x]).length = h.data.length + 1 := by simp
      rw [k1, this]
      exact k6

/-- The tail-rebuilding loop, processing indices `s, s+1, ..., s+c-1` (the
whole array has length `s + c`). -/
theorem rtGo_spec : ∀ (c s : Nat) (d : List α) (bit : List Bool),
    bit.length = d.length → s + c = d.length → PrefixInv d bit s →
    ((List.range' s c).foldl (fun acc i => (WeakHeap.sift_up_push acc 0 i).1)
      (⟨d, bit⟩ : WeakHeap α)).data.length = d.length ∧
    ((List.range' s c).foldl (fun acc i => (WeakHeap.sift_up_push acc 0 i).1)
      (⟨d, bit⟩ : WeakHeap α)).bit.length = bit.length ∧
    ((List.range' s c).foldl (fun acc i => (WeakHeap.sift_up_push acc 0 i).1)
      (⟨d, bit⟩ : WeakHeap α)).data.Perm d ∧
    WHInv ((List.range' s c).foldl (fun acc i => (WeakHeap.sift_up_push acc 0 i).1)
      (⟨d, bit⟩ : WeakHeap α)) := by
  intro c
  induction c with
  | zero =>
    intro s d bit hbl hlen hP
    refine ⟨rfl, rfl, List.Perm.refl _, hbl.symm, ?_⟩
    intro j hj hj1
    have hj' : j < d.length := hj
    exact hP j (by omega) hj1
  | succ m ih =>
    intro s d bit hbl hlen hP
    obtain ⟨k1, k2, k3, k4, k5, k6⟩ :=
      sift_up_push_spec d bit s (by omega) (fun j hj hj1 => hP j hj hj1)
    set w := (WeakHeap.sift_up_push (⟨d, bit⟩ : WeakHeap α) 0 s).1 with hw
    have hstep : (List.range' s (m + 1)).foldl
        (fun acc i => (WeakHeap.sift_up_push acc 0 i).1) (⟨d, bit⟩ : WeakHeap α) =
        (List.range' (s + 1) m).foldl
          (fun acc i => (WeakHeap.sift_up_push acc 0 i).1) w := by
      rw [List.range'_succ, List.foldl_cons]
    have hweta : (⟨w.data, w.bit⟩ : WeakHeap α) = w := rfl
    obtain ⟨m1, m2, m3, m4⟩ := ih (s + 1) w.data w.bit (by omega) (by omega)
      (fun j hj hj1 => k6 j (by omega) hj1)
    rw [hweta] at m1 m2 m3 m4
    rw [hstep]
    exact ⟨by omega, by omega, m3.trans k3, m4⟩

/-- Specification of `rebuild_tail(start)`: assuming the prefix below
`start` is heap-ordered, the whole array becomes heap-ordered and the data
is only permuted. -/
theorem rebuild_tail_spec (d : List α) (bit : List Bool) (start : Nat)
    (hbl : bit.length = d.length) (hstart : start ≤ d.length)
    (hP : PrefixInv d bit start) :
    (WeakHeap.rebuild_tail (⟨d, bit⟩ : WeakHeap α) start).data.length = d.length ∧
    (WeakHeap.rebuild_tail (⟨d, bit⟩ : WeakHeap α) start).bit.length = bit.length ∧
    (WeakHeap.rebuild_tail (⟨d, bit⟩ : WeakHeap α) start).data.Perm d ∧
    WHInv (WeakHeap.rebuild_tail (⟨d, bit⟩ : WeakHeap α) start) := by
  by_cases hse : start = d.length
  · have hres : WeakHeap.rebuild_tail (⟨d, bit⟩ : WeakHeap α) start = ⟨d, bit⟩ := by
      simp [WeakHeap.rebuild_tail, hse]
    rw [hres]
    refine ⟨rfl, rfl, List.Perm.refl _, hbl.symm, ?_⟩
    intro j hj hj1
    have hj' : j < d.length := hj
    exact hP j (by omega) hj1
  · have hres : WeakHeap.rebuild_tail (⟨d, bit⟩ : WeakHeap α) start =
        (List.range' start (d.length - start)).foldl
          (fun acc i => (WeakHeap.sift_up_push acc 0 i).1) ⟨d, bit⟩ := by
      simp only [WeakHeap.rebuild_tail]
      rw [if_neg hse]
    rw [hres]
    exact rtGo_spec (d.length - start) start d bit hbl (by omega) hP

/-- Specification of `append`: the kept operand holds a permutation of both
inputs and is a valid heap; the drained operand is left empty. -/
theorem append_spec (a b : WeakHeap α) (ha : WHInv a) (hb : WHInv b) :
    WHInv (WeakHeap.append a b).1 ∧
    (WeakHeap.append a b).1.data.Perm (a.data ++ b.data) ∧
    (WeakHeap.append a b).1.data.length = a.data.length + b.data.length ∧
    (WeakHeap.append a b).1.bit.length = a.bit.length + b.bit.length ∧
    (WeakHeap.append a b).2.data = [] ∧ (WeakHeap.append a b).2.bit = [] := by
  have key : ∀ (s o : WeakHeap α), WHInv s → WHInv o →
      WHInv (WeakHeap.rebuild_tail
        (⟨s.data ++ o.data, s.bit ++ o.bit⟩ : WeakHeap α) s.data.length) ∧
      (WeakHeap.rebuild_tail
        (⟨s.data ++ o.data, s.bit ++ o.bit⟩ : WeakHeap α) s.data.length).data.Perm
        (s.data ++ o.data) ∧
      (WeakHeap.rebuild_tail
        (⟨s.data ++ o.data, s.bit ++ o.bit⟩ : WeakHeap α) s.data.length).data.length =
        s.data.length + o.data.length ∧
      (WeakHeap.rebuild_tail
        (⟨s.data ++ o.data, s.bit ++ o.bit⟩ : WeakHeap α) s.data.length).bit.length =
        s.bit.length + o.bit.length := by
    intro s o hs ho
    obtain ⟨hsl, hsP⟩ := hs
    obtain ⟨hol, hoP⟩ := ho
    have hP' : PrefixInv (s.data ++ o.data) (s.bit ++ o.bit) s.data.length := by
      refine prefixInv_congr s.data (s.data ++ o.data) s.bit (s.bit ++ o.bit)
        s.data.length ?_ ?_ hsP
      · intro i hi
        rw [getE, getE, gd_append_left s.data o.data i default hi]
      · intro i hi
        rw [gd_append_left s.bit o.bit i false (by omega)]
    obtain ⟨k1, k2, k3, k4⟩ := rebuild_tail_spec (s.data ++ o.data) (s.bit ++ o.bit)
      s.data.length (by simp [hsl, hol]) (by simp) hP'
    refine ⟨k4, k3, by simpa using k1, by simpa using k2⟩
  by_cases hsw : a.data.length < b.data.length
  · have hres : WeakHeap.append a b =
        (WeakHeap.rebuild_tail (⟨b.data ++ a.data, b.bit ++ a.bit⟩ : WeakHeap α)
          b.data.length, (⟨[], []⟩ : WeakHeap α)) := by
      simp [WeakHeap.append, hsw]
    rw [hres]
    obtain ⟨k1, k2, k3, k4⟩ := key b a hb ha
    exact ⟨k1, k2.trans (List.perm_append_comm), by dsimp only; omega, by dsimp only; omega,
      rfl, rfl⟩
  · have hres : WeakHeap.append a b =
        (WeakHeap.rebuild_tail (⟨a.data ++ b.data, a.bit ++ b.bit⟩ : WeakHeap α)
          a.data.length, (⟨[], []⟩ : WeakHeap α)) := by
      simp [WeakHeap.append, hsw]
    rw [hres]
    obtain ⟨k1, k2, k3, k4⟩ := key a b ha hb
    exact ⟨k1, k2, by dsimp only; omega, by dsimp only; omega, rfl, rfl⟩

/-! ### Correctness of `sift_down_range` -/

/-- Binary ancestry: `j` is obtained from `q` by repeated halving. -/
def isBinAnc (j q : Nat) : Prop := ∃ k, q / 2 ^ k = j

theorem isBinAnc_refl (q : Nat) : isBinAnc q q := ⟨0, by simp⟩

theorem isBinAnc_le (j q : Nat) (h : isBinAnc j q) : j ≤ q := by
  obtain ⟨k, hk⟩ := h
  rw [← hk]
  exact Nat.div_le_self q (2 ^ k)

theorem isBinAnc_zero (j : Nat) (h : isBinAnc j 0) : j = 0 := by
  obtain ⟨k, hk⟩ := h
  simp at hk
  omega

theorem isBinAnc_of_half (j q : Nat) (h : isBinAnc j (q / 2)) : isBinAnc j q := by
  obtain ⟨k, hk⟩ := h
  refine ⟨k + 1, ?_⟩
  rw [pow_succ, mul_comm, ← Nat.div_div_eq_div_mul]
  exact hk

theorem half_of_isBinAnc (j q : Nat) (h : isBinAnc j q) (hne : j ≠ q) :
    isBinAnc j (q / 2) := by
  obtain ⟨k, hk⟩ := h
  match k with
  | 0 =>
    exfalso
    exact hne (by simpa using hk.symm)
  | Nat.succ m =>
    refine ⟨m, ?_⟩
    rw [Nat.div_div_eq_div_mul, mul_comm, ← pow_succ]
    exact hk

theorem sdrDescend_step (bit : List Bool) (e pos : Nat)
    (h : 0 < pos ∧ 2 * pos + bval bit pos < e) :
    WeakHeap.sdrDescend bit e pos = WeakHeap.sdrDescend bit e (2 * pos + bval bit pos) := by
  conv_lhs => rw [WeakHeap.sdrDescend]
  rw [dif_pos h]

theorem sdrDescend_stop (bit : List Bool) (e pos : Nat)
    (h : ¬(0 < pos ∧ 2 * pos + bval bit pos < e)) :
    WeakHeap.sdrDescend bit e pos = pos := by
  conv_lhs => rw [WeakHeap.sdrDescend]
  rw [dif_neg h]

theorem sdrDescend_lt (bit : List Bool) (e : Nat) :
    ∀ pos, pos < e → WeakHeap.sdrDescend bit e pos < e := by
  have H : ∀ n pos, e - pos = n → pos < e → WeakHeap.sdrDescend bit e pos < e := by
    intro n
    induction n using Nat.strong_induction_on with
    | _ n ih =>
      intro pos hn hpos
      by_cases hc : 0 < pos ∧ 2 * pos + bval bit pos < e
      · obtain ⟨hc1, hc2⟩ := hc
        rw [sdrDescend_step bit e pos ⟨hc1, hc2⟩]
        exact ih (e - (2 * pos + bval bit pos)) (by omega) _ rfl hc2
      · rw [sdrDescend_stop bit e pos hc]
        exact hpos
  exact fun pos => H (e - pos) pos rfl

theorem sdrDescend_pos (bit : List Bool) (e : Nat) :
    ∀ pos, 1 ≤ pos → 1 ≤ WeakHeap.sdrDescend bit e pos := by
  have H : ∀ n pos, e - pos = n → 1 ≤ pos → 1 ≤ WeakHeap.sdrDescend bit e pos := by
    intro n
    induction n using Nat.strong_induction_on with
    | _ n ih =>
      intro pos hn hpos
      by_cases hc : 0 < pos ∧ 2 * pos + bval bit pos < e
      · obtain ⟨hc1, hc2⟩ := hc
        rw [sdrDescend_step bit e pos ⟨hc1, hc2⟩]
        exact ih (e - (2 * pos + bval bit pos)) (by omega) _ rfl (by omega)
      · rw [sdrDescend_stop bit e pos hc]
        exact hpos
  exact fun pos => H (e - pos) pos rfl

theorem isBinAnc_parent (j q : Nat) (h : isBinAnc j q) : isBinAnc (j / 2) q := by
  obtain ⟨k, hk⟩ := h
  exact ⟨k + 1, by rw [pow_succ, ← Nat.div_div_eq_div_mul, hk]⟩

theorem sdrDescend_binAnc (bit : List Bool) (e : Nat) :
    ∀ pos, 1 ≤ pos → isBinAnc pos (WeakHeap.sdrDescend bit e pos) := by
  have H : ∀ n pos, e - pos = n → 1 ≤ pos →
      isBinAnc pos (WeakHeap.sdrDescend bit e pos) := by
    intro n
    induction n using Nat.strong_induction_on with
    | _ n ih =>
      intro pos hn hpos
      by_cases hc : 0 < pos ∧ 2 * pos + bval bit pos < e
      · obtain ⟨hc1, hc2⟩ := hc
        rw [sdrDescend_step bit e pos ⟨hc1, hc2⟩]
        have hnext := ih (e - (2 * pos + bval bit pos)) (by omega) _ rfl (by omega)
        have hh := isBinAnc_parent _ _ hnext
        have hhalf : (2 * pos + bval bit pos) / 2 = pos := by
          have := bval_le_one bit pos
          omega
        rw [hhalf] at hh
        exact hh
      · rw [sdrDescend_stop bit e pos hc]
        exact isBinAnc_refl pos
  exact fun pos => H (e - pos) pos rfl

/-- The distinguished-child path inside the window `[0, e)`, rooted at 1. -/
inductive DescPath (bit : List Bool) (e : Nat) : Nat → Prop
  | one : DescPath bit e 1
  | step {p : Nat} : DescPath bit e p → 2 * p + bval bit p < e →
      DescPath bit e (2 * p + bval bit p)

theorem descPath_pos (bit : List Bool) (e p : Nat) (h : DescPath bit e p) : 1 ≤ p := by
  induction h with
  | one => omega
  | step hp hlt ih => omega

/-- Every node of the path has distinguished ancestor 0. -/
theorem descPath_dAnc0 (bit : List Bool) (e p : Nat) (h : DescPath bit e p) :
    dAnc bit p = 0 := by
  induction h with
  | one =>
    unfold dAnc
    rw [dAncCur_stop bit 0 1 (by rintro ⟨h1, -⟩; omega)]
  | step hp hlt ih =>
    rename_i q
    have hq1 := descPath_pos bit e q hp
    have hb := bval_le_one bit q
    unfold dAnc at ih ⊢
    have hhalf : (2 * q + bval bit q) / 2 = q := by omega
    have hmod : (2 * q + bval bit q) % 2 = bval bit q := by omega
    rw [dAncCur_step bit 0 (2 * q + bval bit q) (by rw [hhalf, hmod]; exact ⟨by omega, rfl⟩)]
    rw [hhalf]
    exact ih

/-- The descent follows the unique distinguished path, so it computes the
same endpoint from any point of the path. -/
theorem sdrDescend_of_path (bit : List Bool) (e p : Nat) (h : DescPath bit e p) :
    WeakHeap.sdrDescend bit e 1 = WeakHeap.sdrDescend bit e p := by
  induction h with
  | one => rfl
  | step hp hlt ih =>
    rename_i q
    have hq1 := descPath_pos bit e q hp
    rw [ih, sdrDescend_step bit e q ⟨by omega, hlt⟩]

/-- Conversely, every in-window node with distinguished ancestor 0 lies on
the path. -/
theorem dAnc0_descPath (bit : List Bool) (e : Nat) :
    ∀ j, 1 ≤ j → j < e → dAnc bit j = 0 → DescPath bit e j := by
  intro j
  induction j using Nat.strong_induction_on with
  | _ j ih =>
    intro hj1 hje hj0
    rcases Nat.lt_or_ge j 2 with hj2 | hj2
    · have : j = 1 := by omega
      subst this
      exact DescPath.one
    · have hcur1 : dAncCur bit 0 j = 1 := by
        have h1 := one_le_dAncCur bit 0 j (by omega)
        unfold dAnc at hj0
        omega
      have hcond : 0 < j / 2 ∧ j % 2 = bval bit (j / 2) := by
        by_contra hcc
        rw [dAncCur_stop bit 0 j hcc] at hcur1
        omega
      have hrec : dAncCur bit 0 (j / 2) = 1 := by
        rw [← dAncCur_step bit 0 j hcond]
        exact hcur1
      have hpath : DescPath bit e (j / 2) := by
        refine ih (j / 2) (by omega) (by omega) (by omega) ?_
        unfold dAnc
        omega
      have hj' : j = 2 * (j / 2) + bval bit (j / 2) := by
        have := bval_le_one bit (j / 2)
        omega
      rw [hj']
      exact DescPath.step hpath (by omega)

/-- The endpoint of the descent is itself on the path. -/
theorem sdrDescend_path (bit : List Bool) (e : Nat) :
    ∀ p, DescPath bit e p → DescPath bit e (WeakHeap.sdrDescend bit e p) := by
  have H : ∀ n p, e - p = n → DescPath bit e p →
      DescPath bit e (WeakHeap.sdrDescend bit e p) := by
    intro n
    induction n using Nat.strong_induction_on with
    | _ n ih =>
      intro p hn hp
      by_cases hc : 0 < p ∧ 2 * p + bval bit p < e
      · obtain ⟨hc1, hc2⟩ := hc
        rw [sdrDescend_step bit e p ⟨hc1, hc2⟩]
        exact ih (e - (2 * p + bval bit p)) (by omega) _ rfl (DescPath.step hp hc2)
      · rw [sdrDescend_stop bit e p hc]
        exact hp
  exact fun p => H (e - p) p rfl

theorem dAnc_zero_zero (b : List Bool) : dAnc b 0 = 0 := by
  unfold dAnc
  rw [dAncCur_stop b 0 0 (by rintro ⟨h1, -⟩; omega)]

theorem dAnc0_parent (b : List Bool) (pos : Nat) (h2 : 2 ≤ pos) (h0 : dAnc b pos = 0) :
    dAnc b (pos / 2) = 0 := by
  have hcur1 : dAncCur b 0 pos = 1 := by
    have := one_le_dAncCur b 0 pos (by omega)
    unfold dAnc at h0
    omega
  have hcond : 0 < pos / 2 ∧ pos % 2 = bval b (pos / 2) := by
    by_contra hcc
    rw [dAncCur_stop b 0 pos hcc] at hcur1
    omega
  unfold dAnc
  rw [← dAncCur_step b 0 pos hcond, hcur1]

theorem sdrAscend_swap (d : List α) (b : List Bool) (pos : Nat)
    (hp : 0 < pos) (hcmp : getE d 0 < getE d pos) :
    WeakHeap.sdrAscend 0 d b pos =
      WeakHeap.sdrAscend 0 (swapL d 0 pos) (b.set pos (!(b.getD pos false))) (pos / 2) := by
  conv_lhs => rw [WeakHeap.sdrAscend]
  rw [dif_pos hp, if_pos hcmp]

theorem sdrAscend_noswap (d : List α) (b : List Bool) (pos : Nat)
    (hp : 0 < pos) (hcmp : ¬getE d 0 < getE d pos) :
    WeakHeap.sdrAscend 0 d b pos = WeakHeap.sdrAscend 0 d b (pos / 2) := by
  conv_lhs => rw [WeakHeap.sdrAscend]
  rw [dif_pos hp, if_neg hcmp]

theorem sdrAscend_zero (d : List α) (b : List Bool) :
    WeakHeap.sdrAscend 0 d b 0 = (d, b) := by
  rw [WeakHeap.sdrAscend, dif_neg (by omega)]

/-- The ascent phase restores the window invariant: on entry every non-root
relation holds and every root-relation violation sits on the remaining
path (the binary ancestors of `pos`); on exit the whole window satisfies
the invariant.  Data is permuted, and nothing at or beyond `e` changes. -/
theorem sdrAscend_spec : ∀ (pos : Nat) (d : List α) (b : List Bool) (e : Nat),
    b.length = d.length → 2 ≤ e → e ≤ d.length → pos < e →
    dAnc b pos = 0 →
    (∀ j, 1 ≤ j → j < e → dAnc b j ≠ 0 → getE d j ≤ getE d (dAnc b j)) →
    (∀ j, 1 ≤ j → j < e → dAnc b j = 0 → ¬isBinAnc j pos → getE d j ≤ getE d 0) →
    (WeakHeap.sdrAscend 0 d b pos).1.length = d.length ∧
    (WeakHeap.sdrAscend 0 d b pos).2.length = b.length ∧
    (WeakHeap.sdrAscend 0 d b pos).1.Perm d ∧
    (∀ j, e ≤ j → getE (WeakHeap.sdrAscend 0 d b pos).1 j = getE d j) ∧
    (∀ j, e ≤ j → (WeakHeap.sdrAscend 0 d b pos).2.getD j false = b.getD j false) ∧
    PrefixInv (WeakHeap.sdrAscend 0 d b pos).1 (WeakHeap.sdrAscend 0 d b pos).2 e := by
  intro pos
  induction pos using Nat.strong_induction_on with
  | _ pos ih =>
    intro d b e hbl he2 heL hposE hpos0 hK1 hK2
    by_cases hp : 0 < pos
    · have hposL : pos < d.length := by omega
      have h0L : 0 < d.length := by omega
      have hposB : pos < b.length := by omega
      have hnext0 : dAnc b (pos / 2) = 0 := by
        rcases Nat.lt_or_ge pos 2 with h2 | h2
        · have h1 : pos = 1 := by omega
          rw [h1]
          exact dAnc_zero_zero b
        · exact dAnc0_parent b pos h2 hpos0
      by_cases hcmp : getE d 0 < getE d pos
      · -- the window root loses: swap it down to `pos` and flip the bit
        rw [sdrAscend_swap d b pos hp hcmp]
        set d' := swapL d 0 pos with hdswap
        set b' := b.set pos (!(b.getD pos false)) with hbflip
        have hd'0 : getE d' 0 = getE d pos := getE_swapL_fst d 0 pos h0L
        have hd'pos : getE d' pos = getE d 0 := getE_swapL_snd d 0 pos hposL
        have hd'other : ∀ k, k ≠ 0 → k ≠ pos → getE d' k = getE d k := fun k h1 h2 =>
          getE_swapL_other d 0 pos k h1 h2
        have hb'below : ∀ i, i < pos → b'.getD i false = b.getD i false := by
          intro i hi
          rw [hbflip, gd_set_ne b pos i _ false (by omega)]
        have hb'above : ∀ i, pos < i → b'.getD i false = b.getD i false := by
          intro i hi
          rw [hbflip, gd_set_ne b pos i _ false (by omega)]
        have hAncLow : ∀ j, j ≤ pos → dAnc b' j = dAnc b j := by
          intro j hj
          unfold dAnc
          rw [dAncCur_congr b' b 0 j (fun i hi => hb'below i (by omega))]
        have hnext0' : dAnc b' (pos / 2) = 0 := by
          rw [hAncLow (pos / 2) (by omega)]
          exact hnext0
        have hK1' : ∀ j, 1 ≤ j → j < e → dAnc b' j ≠ 0 →
            getE d' j ≤ getE d' (dAnc b' j) := by
          intro j hj1 hje hdj'
          by_cases hjpos : j = pos
          · subst hjpos
            rw [hAncLow j (le_refl j)] at hdj'
            exact absurd hpos0 hdj'
          rcases Nat.lt_or_ge j pos with hlt | hge
          · have hancEq : dAnc b' j = dAnc b j := hAncLow j (by omega)
            rw [hancEq] at hdj' ⊢
            have hDlt : dAnc b j < j := dAnc_lt b j hj1
            rw [hd'other j (by omega) (by omega),
              hd'other (dAnc b j) hdj' (by omega)]
            exact hK1 j hj1 hje hdj'
          · have hgt : pos < j := by omega
            rcases flip_cases b pos hp hposB j hgt with ⟨heq, hne⟩ | ⟨h1, h2⟩ | ⟨h1, h2⟩
            · rw [← hbflip] at heq
              have hancEq : dAnc b' j = dAnc b j := by
                unfold dAnc
                rw [heq]
              rw [hancEq] at hdj' ⊢
              rw [hd'other j (by omega) (by omega), hd'other (dAnc b j) hdj' hne]
              exact hK1 j hj1 hje hdj'
            · rw [← hbflip] at h1
              have hancEq : dAnc b' j = pos := h1
              have hold0 : dAnc b j = 0 := by
                unfold dAnc
                rw [h2]
                exact hpos0
              rw [hancEq, hd'other j (by omega) (by omega), hd'pos]
              exact hK2 j hj1 hje hold0 (fun hbin => by
                have := isBinAnc_le j pos hbin
                omega)
            · rw [← hbflip] at h2
              have hancEq : dAnc b' j = 0 := by
                unfold dAnc
                rw [h2]
                exact hpos0
              exact absurd hancEq hdj'
        have hK2' : ∀ j, 1 ≤ j → j < e → dAnc b' j = 0 → ¬isBinAnc j (pos / 2) →
            getE d' j ≤ getE d' 0 := by
          intro j hj1 hje hdj' hnb
          rw [hd'0]
          by_cases hjpos : j = pos
          · subst hjpos
            rw [hd'pos]
            exact le_of_lt hcmp
          rcases Nat.lt_or_ge j pos with hlt | hge
          · have hancEq : dAnc b' j = dAnc b j := hAncLow j (by omega)
            rw [hancEq] at hdj'
            rw [hd'other j (by omega) (by omega)]
            have hnbpos : ¬isBinAnc j pos := fun hbin =>
              hnb (half_of_isBinAnc j pos hbin hjpos)
            exact le_trans (hK2 j hj1 hje hdj' hnbpos) (le_of_lt hcmp)
          · have hgt : pos < j := by omega
            rcases flip_cases b pos hp hposB j hgt with ⟨heq, hne⟩ | ⟨h1, h2⟩ | ⟨h1, h2⟩
            · rw [← hbflip] at heq
              have hancEq : dAnc b' j = dAnc b j := by
                unfold dAnc
                rw [heq]
              rw [hancEq] at hdj'
              rw [hd'other j (by omega) (by omega)]
              exact le_trans (hK2 j hj1 hje hdj' (fun hbin => by
                have := isBinAnc_le j pos hbin
                omega)) (le_of_lt hcmp)
            · rw [← hbflip] at h1
              unfold dAnc at hdj'
              rw [h1] at hdj'
              omega
            · rw [← hbflip] at h2
              have hold : dAnc b j = pos := h1
              rw [hd'other j (by omega) (by omega)]
              have := hK1 j hj1 hje (by rw [hold]; omega)
              rw [hold] at this
              exact this
        obtain ⟨m1, m2, m3, m4, m5, m6⟩ := ih (pos / 2) (by omega) d' b' e
          (by rw [hbflip, hdswap]; simp [hbl]) he2 (by rw [hdswap]; simpa using heL)
          (by omega) hnext0' hK1' hK2'
        refine ⟨by rw [m1, hdswap]; simp, by rw [m2, hbflip]; simp, ?_, ?_, ?_, m6⟩
        · exact m3.trans (swapL_perm d 0 pos h0L hposL)
        · intro j hj
          rw [m4 j hj, hd'other j (by omega) (by omega)]
        · intro j hj
          rw [m5 j hj, hb'above j (by omega)]
      · -- the window root already dominates this node: move on
        rw [sdrAscend_noswap d b pos hp hcmp]
        have hK2' : ∀ j, 1 ≤ j → j < e → dAnc b j = 0 → ¬isBinAnc j (pos / 2) →
            getE d j ≤ getE d 0 := by
          intro j hj1 hje hdj hnb
          by_cases hjpos : j = pos
          · subst hjpos
            exact not_lt.mp hcmp
          · exact hK2 j hj1 hje hdj (fun hbin => hnb (half_of_isBinAnc j pos hbin hjpos))
        exact ih (pos / 2) (by omega) d b e hbl he2 heL (by omega) hnext0 hK1 hK2'
    · -- pos = 0: the ascent is finished and the window is heap-ordered
      have hp0 : pos = 0 := by omega
      subst hp0
      rw [sdrAscend_zero d b]
      refine ⟨rfl, rfl, List.Perm.refl _, fun j _ => rfl, fun j _ => rfl, ?_⟩
      intro j hj hj1
      by_cases hdj : dAnc b j = 0
      · rw [hdj]
        exact hK2 j hj1 hj hdj (fun hbin => by
          have := isBinAnc_zero j hbin
          omega)
      · exact hK1 j hj1 hj hdj

/-- Full specification of `sift_down_range(0, e)`: given that every
non-root relation in the window holds (the root may be damaged), the
window invariant is restored; the data is permuted and everything at or
beyond `e` is untouched. -/
theorem sift_down_range_spec (d : List α) (b : List Bool) (e : Nat)
    (hbl : b.length = d.length) (he1 : 1 ≤ e) (he2 : e ≤ d.length)
    (hpre : ∀ j, 1 ≤ j → j < e → dAnc b j ≠ 0 → getE d j ≤ getE d (dAnc b j)) :
    (WeakHeap.sift_down_range (⟨d, b⟩ : WeakHeap α) 0 e).data.length = d.length ∧
    (WeakHeap.sift_down_range (⟨d, b⟩ : WeakHeap α) 0 e).bit.length = b.length ∧
    (WeakHeap.sift_down_range (⟨d, b⟩ : WeakHeap α) 0 e).data.Perm d ∧
    (∀ j, e ≤ j →
      getE (WeakHeap.sift_down_range (⟨d, b⟩ : WeakHeap α) 0 e).data j = getE d j) ∧
    (∀ j, e ≤ j →
      (WeakHeap.sift_down_range (⟨d, b⟩ : WeakHeap α) 0 e).bit.getD j false =
        b.getD j false) ∧
    PrefixInv (WeakHeap.sift_down_range (⟨d, b⟩ : WeakHeap α) 0 e).data
      (WeakHeap.sift_down_range (⟨d, b⟩ : WeakHeap α) 0 e).bit e := by
  by_cases he : e = 1
  · have hres : WeakHeap.sift_down_range (⟨d, b⟩ : WeakHeap α) 0 e = ⟨d, b⟩ := by
      simp [WeakHeap.sift_down_range, he]
    rw [hres]
    refine ⟨rfl, rfl, List.Perm.refl _, fun j _ => rfl, fun j _ => rfl, ?_⟩
    intro j hj hj1
    omega
  · have he2' : 2 ≤ e := by omega
    have hres : WeakHeap.sift_down_range (⟨d, b⟩ : WeakHeap α) 0 e =
        ⟨(WeakHeap.sdrAscend 0 d b (WeakHeap.sdrDescend b e 1)).1,
          (WeakHeap.sdrAscend 0 d b (WeakHeap.sdrDescend b e 1)).2⟩ := by
      simp [WeakHeap.sift_down_range, he]
    set p0 := WeakHeap.sdrDescend b e 1 with hp0def
    have hp0e : p0 < e := sdrDescend_lt b e 1 (by omega)
    have hp0path : DescPath b e p0 := sdrDescend_path b e 1 DescPath.one
    have hanc0 : dAnc b p0 = 0 := descPath_dAnc0 b e p0 hp0path
    have hK2 : ∀ j, 1 ≤ j → j < e → dAnc b j = 0 → ¬isBinAnc j p0 →
        getE d j ≤ getE d 0 := by
      intro j hj1 hje hdj hnb
      exfalso
      apply hnb
      have hpath := dAnc0_descPath b e j hj1 hje hdj
      have h1 := sdrDescend_of_path b e j hpath
      have h2 := sdrDescend_binAnc b e j hj1
      rw [hp0def, h1]
      exact h2
    obtain ⟨m1, m2, m3, m4, m5, m6⟩ :=
      sdrAscend_spec p0 d b e hbl he2' he2 hp0e hanc0 hpre hK2
    rw [hres]
    exact ⟨m1, m2, m3, m4, m5, m6⟩

/-! ### Maximality at the root, `peek`, and friends -/

theorem whi_le_root (h : WeakHeap α) (hInv : WHInv h) (x : α) (hx : x ∈ h.data) :
    x ≤ getE h.data 0 := by
  obtain ⟨n, hn, heq⟩ := List.mem_iff_getElem.mp hx
  have h1 : getE h.data n = x := by rw [getE_eq_getElem h.data n hn, heq]
  rw [← h1]
  exact prefixInv_le_root h.data h.bit h.data.length hInv.2 n hn

theorem root_mem (d : List α) (hd : d ≠ []) : getE d 0 ∈ d := by
  have h0 : 0 < d.length := List.length_pos.mpr hd
  rw [getE_eq_getElem d 0 h0]
  exact List.getElem_mem h0

theorem head?_getE (d : List α) (hd : d ≠ []) : d.head? = some (getE d 0) := by
  have h0 : 0 < d.length := List.length_pos.mpr hd
  rw [List.head?_eq_getElem?, List.getElem?_eq_getElem h0, getE_eq_getElem d 0 h0]

theorem getLast?_getE (d : List α) (hd : d ≠ []) :
    d.getLast? = some (getE d (d.length - 1)) := by
  have h0 : 0 < d.length := List.length_pos.mpr hd
  rw [List.getLast?_eq_getElem?, List.getElem?_eq_getElem (by omega),
    getE_eq_getElem d (d.length - 1) (by omega)]

/-- Two equal-length lists agreeing (via `getE`) from `m` on have equal
`drop m`. -/
theorem drop_eq_of_getE (X Y : List α) (m : Nat) (hlen : X.length = Y.length)
    (h : ∀ k, m ≤ k → getE X k = getE Y k) : X.drop m = Y.drop m := by
  apply List.ext_getElem?
  intro n
  rw [List.getElem?_drop, List.getElem?_drop]
  by_cases hk : m + n < X.length
  · rw [List.getElem?_eq_getElem hk, List.getElem?_eq_getElem (by omega)]
    have := h (m + n) (by omega)
    rw [getE_eq_getElem X _ hk, getE_eq_getElem Y _ (by omega)] at this
    rw [this]
  · rw [List.getElem?_eq_none (by omega), List.getElem?_eq_none (by omega)]

/-- A permutation that fixes the suffix from `m` on permutes the prefixes. -/
theorem perm_take_of_perm_drop (X Y : List α) (m : Nat)
    (hperm : X.Perm Y) (hdrop : X.drop m = Y.drop m) :
    (X.take m).Perm (Y.take m) := by
  have h1 : X.take m ++ X.drop m = X := List.take_append_drop m X
  have h2 : Y.take m ++ Y.drop m = Y := List.take_append_drop m Y
  rw [← (List.perm_append_right_iff (X.drop m))]
  rw [h1, hdrop, h2]
  exact hperm

/-! ### `sift_down_range` is a no-op when the window root is maximal -/

theorem sdrAscend_noop : ∀ (pos : Nat) (d : List α) (b : List Bool) (e : Nat), pos < e →
    (∀ k, k < e → getE d k ≤ getE d 0) →
    WeakHeap.sdrAscend 0 d b pos = (d, b) := by
  intro pos
  induction pos using Nat.strong_induction_on with
  | _ pos ih =>
    intro d b e hpe hmax
    by_cases hp : 0 < pos
    · rw [sdrAscend_noswap d b pos hp (not_lt.mpr (hmax pos hpe))]
      exact ih (pos / 2) (by omega) d b e (by omega) hmax
    · have hp0 : pos = 0 := by omega
      subst hp0
      exact sdrAscend_zero d b

theorem sift_down_range_noop (d : List α) (b : List Bool) (e : Nat) (he1 : 1 ≤ e)
    (hmax : ∀ k, k < e → getE d k ≤ getE d 0) :
    WeakHeap.sift_down_range (⟨d, b⟩ : WeakHeap α) 0 e = ⟨d, b⟩ := by
  by_cases he : e = 1
  · simp [WeakHeap.sift_down_range, he]
  · have hres : WeakHeap.sift_down_range (⟨d, b⟩ : WeakHeap α) 0 e =
        ⟨(WeakHeap.sdrAscend 0 d b (WeakHeap.sdrDescend b e 1)).1,
          (WeakHeap.sdrAscend 0 d b (WeakHeap.sdrDescend b e 1)).2⟩ := by
      simp [WeakHeap.sift_down_range, he]
    rw [hres, sdrAscend_noop (WeakHeap.sdrDescend b e 1) d b e
      (sdrDescend_lt b e 1 (by omega)) hmax]

/-! ### Specifications of `pop` and `pushpop` -/

theorem pop_spec (h : WeakHeap α) (hInv : WHInv h) (hne : h.data ≠ []) :
    (h.pop).1 = some (getE h.data 0) ∧
    WHInv (h.pop).2 ∧
    (h.pop).2.data.length = h.data.length - 1 ∧
    (h.pop).2.bit.length = h.bit.length - 1 ∧
    ((getE h.data 0) :: (h.pop).2.data).Perm h.data := by
  obtain ⟨hbl, hP⟩ := hInv
  have hL : 1 ≤ h.data.length := List.length_pos.mpr hne
  have hlast : h.data.getLast? = some (getE h.data (h.data.length - 1)) :=
    getLast?_getE h.data hne
  by_cases h1 : h.data.length = 1
  · have hd'0 : h.data.dropLast.length = 0 := by simp [h1]
    have hres : h.pop =
        (some (getE h.data (h.data.length - 1)), ⟨h.data.dropLast, h.bit.dropLast⟩) := by
      simp only [WeakHeap.pop, hlast]
      rw [if_neg (by omega)]
    rw [hres]
    obtain ⟨a, ha⟩ := List.length_eq_one.mp h1
    refine ⟨by rw [h1], ⟨by simp only [List.length_dropLast]; omega, ?_⟩,
      by simp, by simp, ?_⟩
    · intro j hj hj1
      rw [hd'0] at hj
      omega
    · have hnil : h.data.dropLast = [] := List.length_eq_zero.mp hd'0
      rw [hnil, ha]
      have hga : getE [a] 0 = a := rfl
      rw [hga]
  · have hL2 : 2 ≤ h.data.length := by omega
    have hd'len : h.data.dropLast.length = h.data.length - 1 := by simp
    have hres : h.pop = (some (getE h.data.dropLast 0),
        WeakHeap.sift_down
          ⟨(h.data.dropLast).set 0 (getE h.data (h.data.length - 1)), h.bit.dropLast⟩ 0) := by
      simp only [WeakHeap.pop, hlast]
      rw [if_pos (by omega)]
    set lastv := getE h.data (h.data.length - 1) with hlastv
    set X := (h.data.dropLast).set 0 lastv with hXdef
    have hXlen : X.length = h.data.length - 1 := by rw [hXdef]; simp
    have hsd : WeakHeap.sift_down (⟨X, h.bit.dropLast⟩ : WeakHeap α) 0 =
        WeakHeap.sift_down_range (⟨X, h.bit.dropLast⟩ : WeakHeap α) 0
          (h.data.length - 1) := by
      unfold WeakHeap.sift_down
      rw [show (⟨X, h.bit.dropLast⟩ : WeakHeap α).data.length = h.data.length - 1 from hXlen]
    have hbitlow : ∀ i, i < h.data.length - 1 →
        (h.bit.dropLast).getD i false = h.bit.getD i false := by
      intro i hi
      exact gd_dropLast h.bit i false (by omega)
    have hanc_eq : ∀ j, j < h.data.length - 1 →
        dAnc (h.bit.dropLast) j = dAnc h.bit j := by
      intro j hj
      unfold dAnc
      rw [dAncCur_congr (h.bit.dropLast) h.bit 0 j (fun i hi => hbitlow i (by omega))]
    have hXval : ∀ j, 1 ≤ j → j < h.data.length - 1 → getE X j = getE h.data j := by
      intro j hj1 hj2
      rw [hXdef, getE_set_ne _ _ _ _ (by omega), getE, getE,
        gd_dropLast h.data j default (by omega)]
    have hpre : ∀ j, 1 ≤ j → j < h.data.length - 1 → dAnc (h.bit.dropLast) j ≠ 0 →
        getE X j ≤ getE X (dAnc (h.bit.dropLast) j) := by
      intro j hj1 hj2 hdj
      rw [hanc_eq j hj2] at hdj ⊢
      have hDlt : dAnc h.bit j < j := dAnc_lt h.bit j hj1
      rw [hXval j hj1 hj2, hXval (dAnc h.bit j) (by omega) (by omega)]
      exact hP j (by omega) hj1
    obtain ⟨m1, m2, m3, m4, m5, m6⟩ := sift_down_range_spec X (h.bit.dropLast)
      (h.data.length - 1) (by rw [hXlen]; simp [hbl]) (by omega) (by omega) hpre
    have hroot : getE h.data.dropLast 0 = getE h.data 0 := by
      rw [getE, getE, gd_dropLast h.data 0 default (by omega)]
    rw [hres, hsd]
    refine ⟨by rw [hroot], ⟨by rw [m1, m2, hXlen]; simp [hbl], ?_⟩, by rw [m1, hXlen],
      by rw [m2]; simp, ?_⟩
    · rw [m1, hXlen]
      exact m6
    · -- the popped root plus the new data is a permutation of the old data
      obtain ⟨a, t, hDt⟩ : ∃ a t, h.data.dropLast = a :: t := by
        cases hD : h.data.dropLast with
        | nil => rw [hD] at hd'len; exfalso; simp at hd'len; omega
        | cons a t => exact ⟨a, t, rfl⟩
      have hXcons : X = lastv :: t := by
        rw [hXdef, hDt]
        rfl
      have haroot : a = getE h.data 0 := by
        have hg : getE h.data.dropLast 0 = a := by rw [hDt]; rfl
        rw [← hg, hroot]
      have hsplit : h.data.dropLast ++ [lastv] = h.data := by
        have h3 := List.getLast?_eq_getLast h.data hne
        rw [hlast] at h3
        have h2 : lastv = h.data.getLast hne := Option.some_inj.mp h3
        rw [h2]
        exact List.dropLast_concat_getLast hne
      refine List.Perm.trans (List.Perm.cons _ m3) ?_
      rw [hXcons]
      conv_rhs => rw [← hsplit]
      rw [hDt, haroot]
      exact List.Perm.cons _ ((List.perm_append_singleton _ _).symm)

theorem pushpop_empty (h : WeakHeap α) (x : α) (he : h.data = []) :
    h.pushpop x = (x, h) := by
  simp [WeakHeap.pushpop, he]

theorem pushpop_big (h : WeakHeap α) (x : α) (hne : h.data ≠ [])
    (hgt : getE h.data 0 < x) : h.pushpop x = (x, h) := by
  have hL : h.data.length ≠ 0 := by
    have := List.length_pos.mpr hne
    omega
  simp [WeakHeap.pushpop, hL, hgt]

theorem pushpop_small (h : WeakHeap α) (x : α) (hInv : WHInv h) (hne : h.data ≠ [])
    (hle : ¬getE h.data 0 < x) :
    (h.pushpop x).1 = getE h.data 0 ∧ WHInv (h.pushpop x).2 ∧
    (h.pushpop x).2.data.Perm (h.data.set 0 x) ∧
    (h.pushpop x).2.data.length = h.data.length ∧
    (h.pushpop x).2.bit.length = h.bit.length := by
  obtain ⟨hbl, hP⟩ := hInv
  have hL : h.data.length ≠ 0 := by
    have := List.length_pos.mpr hne
    omega
  have hres : h.pushpop x =
      (getE h.data 0, WeakHeap.sift_down (⟨h.data.set 0 x, h.bit⟩ : WeakHeap α) 0) := by
    simp [WeakHeap.pushpop, hL, hle]
  set X := h.data.set 0 x with hXdef
  have hXlen : X.length = h.data.length := by rw [hXdef]; simp
  have hsd : WeakHeap.sift_down (⟨X, h.bit⟩ : WeakHeap α) 0 =
      WeakHeap.sift_down_range (⟨X, h.bit⟩ : WeakHeap α) 0 h.data.length := by
    unfold WeakHeap.sift_down
    rw [show (⟨X, h.bit⟩ : WeakHeap α).data.length = h.data.length from hXlen]
  have hXval : ∀ j, 1 ≤ j → getE X j = getE h.data j := by
    intro j hj1
    rw [hXdef, getE_set_ne _ _ _ _ (by omega)]
  have hpre : ∀ j, 1 ≤ j → j < h.data.length → dAnc h.bit j ≠ 0 →
      getE X j ≤ getE X (dAnc h.bit j) := by
    intro j hj1 hj2 hdj
    have hDlt : dAnc h.bit j < j := dAnc_lt h.bit j hj1
    rw [hXval j hj1, hXval (dAnc h.bit j) (by omega)]
    exact hP j hj2 hj1
  obtain ⟨m1, m2, m3, m4, m5, m6⟩ := sift_down_range_spec X h.bit h.data.length
    (by rw [hXlen, hbl]) (by omega) (by omega) hpre
  rw [hres, hsd]
  refine ⟨rfl, ⟨by rw [m1, m2, hXlen, hbl], ?_⟩, m3, by rw [m1, hXlen], m2⟩
  rw [m1, hXlen]
  exact m6

/-! ### Correctness of `into_sorted_vec` (weak-heapsort) -/

theorem intoSortedAux_spec : ∀ (e : Nat) (d : List α) (b : List Bool),
    b.length = d.length → e ≤ d.length → PrefixInv d b e →
    (∀ i k, i < e → e ≤ k → k < d.length → getE d i ≤ getE d k) →
    List.Pairwise (· ≤ ·) (d.drop e) →
    (WeakHeap.intoSortedAux (⟨d, b⟩ : WeakHeap α) e).data.length = d.length ∧
    (WeakHeap.intoSortedAux (⟨d, b⟩ : WeakHeap α) e).data.Perm d ∧
    List.Pairwise (· ≤ ·) (WeakHeap.intoSortedAux (⟨d, b⟩ : WeakHeap α) e).data := by
  intro e
  induction e using Nat.strong_induction_on with
  | _ e ih =>
    intro d b hbl heL hP hbnd hsorted
    by_cases he2 : 2 ≤ e
    · have hm1 : 1 ≤ e - 1 := by omega
      have hmL : e - 1 < d.length := by omega
      have h0L : 0 < d.length := by omega
      have hres : WeakHeap.intoSortedAux (⟨d, b⟩ : WeakHeap α) e =
          WeakHeap.intoSortedAux
            (WeakHeap.sift_down_range (⟨swapL d 0 (e - 1), b⟩ : WeakHeap α) 0 (e - 1))
            (e - 1) := by
        rw [WeakHeap.intoSortedAux]
        rw [if_pos he2]
      set m := e - 1 with hmdef
      set d1 := swapL d 0 m with hd1def
      have hd1len : d1.length = d.length := by rw [hd1def]; simp
      have hd1m : getE d1 m = getE d 0 := getE_swapL_snd d 0 m hmL
      have hd10 : getE d1 0 = getE d m := getE_swapL_fst d 0 m h0L
      have hd1other : ∀ k, k ≠ 0 → k ≠ m → getE d1 k = getE d k := fun k h1 h2 =>
        getE_swapL_other d 0 m k h1 h2
      have hpre : ∀ j, 1 ≤ j → j < m → dAnc b j ≠ 0 →
          getE d1 j ≤ getE d1 (dAnc b j) := by
        intro j hj1 hjm hdj
        have hDlt : dAnc b j < j := dAnc_lt b j hj1
        rw [hd1other j (by omega) (by omega), hd1other (dAnc b j) hdj (by omega)]
        exact hP j (by omega) hj1
      obtain ⟨m1, m2, m3, m4, m5, m6⟩ := sift_down_range_spec d1 b m
        (by rw [hd1len, hbl]) hm1 (by omega) hpre
      set r := WeakHeap.sift_down_range (⟨d1, b⟩ : WeakHeap α) 0 m with hrdef
      have hreta : (⟨r.data, r.bit⟩ : WeakHeap α) = r := rfl
      have hrdrop : r.data.drop m = d1.drop m :=
        drop_eq_of_getE r.data d1 m (by omega) m4
      have htake : (r.data.take m).Perm (d1.take m) :=
        perm_take_of_perm_drop r.data d1 m m3 hrdrop
      -- every element of the new window is at most the old window root
      have hwin : ∀ i, i < m → ∀ k, m ≤ k → k < d.length →
          getE r.data i ≤ getE d1 k := by
        intro i him k hkm hkL
        have hmem : getE r.data i ∈ r.data.take m := by
          rw [getE_eq_getElem r.data i (by omega)]
          exact List.mem_take_iff_getElem.mpr ⟨i, by omega, rfl⟩
        have hmem' : getE r.data i ∈ d1.take m := htake.mem_iff.mp hmem
        obtain ⟨i', hi', heq⟩ := List.mem_take_iff_getElem.mp hmem'
        have hi'm : i' < m := by omega
        have hval : getE d1 i' = getE r.data i := by
          rw [getE_eq_getElem d1 i' (by omega), heq]
        rw [← hval]
        have hbase : getE d1 i' ≤ getE d 0 ∧ (e ≤ k → getE d1 i' ≤ getE d k) := by
          by_cases hi'0 : i' = 0
          · subst hi'0
            rw [hd10]
            exact ⟨prefixInv_le_root d b e hP m (by omega),
              fun hek => hbnd m k (by omega) hek hkL⟩
          · rw [hd1other i' hi'0 (by omega)]
            exact ⟨prefixInv_le_root d b e hP i' (by omega),
              fun hek => hbnd i' k (by omega) hek hkL⟩
        rcases Nat.eq_or_lt_of_le hkm with rfl | hkgt
        · rw [hd1m]
          exact hbase.1
        · rw [hd1other k (by omega) (by omega)]
          exact hbase.2 (by omega)
      -- next boundary
      have hbnd' : ∀ i k, i < m → m ≤ k → k < r.data.length →
          getE r.data i ≤ getE r.data k := by
        intro i k him hkm hkL
        rw [m4 k hkm]
        exact hwin i him k hkm (by omega)
      -- next suffix is sorted
      have hd1drop : d1.drop (m + 1) = d.drop (m + 1) :=
        drop_eq_of_getE d1 d (m + 1) hd1len
          (fun k hk => hd1other k (by omega) (by omega))
      have hsorted' : List.Pairwise (· ≤ ·) (r.data.drop m) := by
        have hmlt : m < d1.length := by omega
        rw [hrdrop, List.drop_eq_getElem_cons hmlt, hd1drop]
        have hgm : d1[m] = getE d 0 := by
          rw [← getE_eq_getElem d1 m hmlt]
          exact hd1m
        rw [hgm]
        refine List.pairwise_cons.mpr ⟨?_, by rw [show m + 1 = e by omega]; exact hsorted⟩
        intro y hy
        obtain ⟨n, hn, heqy⟩ := List.mem_iff_getElem.mp hy
        rw [List.getElem_drop] at heqy
        have hlen_dy : (d.drop (m + 1)).length = d.length - (m + 1) := by simp
        rw [← heqy, ← getE_eq_getElem d (m + 1 + n) (by omega)]
        exact hbnd 0 (m + 1 + n) (by omega) (by omega) (by omega)
      obtain ⟨k1, k2, k3⟩ := ih m (by omega) r.data r.bit (by omega) (by omega)
        m6 hbnd' hsorted'
      have k1' : (WeakHeap.intoSortedAux r m).data.length = r.data.length := k1
      have k2' : (WeakHeap.intoSortedAux r m).data.Perm r.data := k2
      have k3' : List.Pairwise (· ≤ ·) (WeakHeap.intoSortedAux r m).data := k3
      rw [hres]
      exact ⟨by omega, k2'.trans (m3.trans (swapL_perm d 0 m h0L hmL)), k3'⟩
    · have hres : WeakHeap.intoSortedAux (⟨d, b⟩ : WeakHeap α) e = ⟨d, b⟩ := by
        rw [WeakHeap.intoSortedAux]
        rw [if_neg he2]
      rw [hres]
      refine ⟨rfl, List.Perm.refl _, ?_⟩
      rcases Nat.eq_zero_or_pos e with he0 | he1
      · subst he0
        simpa using hsorted
      · have he1' : e = 1 := by omega
        subst he1'
        have hdne : d ≠ [] := by
          intro hdn
          rw [hdn] at heL
          simp at heL
        have h0lt : 0 < d.length := by omega
        have hcons : d = d[0] :: d.drop 1 := by
          conv_lhs => rw [← List.drop_zero d]
          exact List.drop_eq_getElem_cons h0lt
        rw [hcons]
        refine List.pairwise_cons.mpr ⟨?_, hsorted⟩
        intro y hy
        obtain ⟨n, hn, heqy⟩ := List.mem_iff_getElem.mp hy
        rw [List.getElem_drop] at heqy
        have hlen_dy : (d.drop 1).length = d.length - 1 := by simp
        rw [← getE_eq_getElem d 0 (by omega), ← heqy,
          ← getE_eq_getElem d (1 + n) (by omega)]
        exact hbnd 0 (1 + n) (by omega) (by omega) (by omega)

/-- `into_sorted_vec` returns an ascending permutation of the contents. -/
theorem into_sorted_vec_spec (h : WeakHeap α) (hInv : WHInv h) :
    (h.into_sorted_vec).Perm h.data ∧ List.Pairwise (· ≤ ·) h.into_sorted_vec := by
  obtain ⟨hbl, hP⟩ := hInv
  have heta : (⟨h.data, h.bit⟩ : WeakHeap α) = h := rfl
  obtain ⟨k1, k2, k3⟩ := intoSortedAux_spec h.data.length h.data h.bit hbl.symm
    (le_refl _) hP (fun i k hik hki hkL => by omega) (by simp)
  rw [heta] at k1 k2 k3
  exact ⟨k2, k3⟩

/-! ### Unconditional length preservation -/

theorem supGo_len : ∀ (cur : Nat) (start pos len : Nat) (elt : α) (d : List α)
    (b : List Bool) (p : Nat),
    (WeakHeap.supGo start pos len elt d b p cur).1.length = d.length ∧
    (WeakHeap.supGo start pos len elt d b p cur).2.1.length = b.length := by
  intro cur
  induction cur using Nat.strong_induction_on with
  | _ cur ih =>
    intro start pos len elt d b p
    by_cases hc : start < cur
    · by_cases hcmp : getE d (dAncCur b start cur / 2) < elt
      · rw [WeakHeap.supGo, dif_pos hc, if_pos hcmp]
        have hlt : dAncCur b start cur / 2 < cur := by
          have h1 := dAncCur_le b start cur
          have h2 := one_le_dAncCur b start cur (by omega)
          omega
        obtain ⟨g1, g2⟩ := ih _ hlt start pos len elt (d.set p (getE d (dAncCur b start cur / 2)))
          (if 2 * pos - 1 < len then b.set pos (!(b.getD pos false)) else b)
          (dAncCur b start cur / 2)
        refine ⟨by rw [g1]; simp, by rw [g2]; split <;> simp⟩
      · rw [WeakHeap.supGo, dif_pos hc, if_neg hcmp]
        exact ⟨rfl, rfl⟩
    · rw [WeakHeap.supGo, dif_neg hc]
      exact ⟨rfl, rfl⟩

theorem sift_up_push_len (h : WeakHeap α) (start pos : Nat) :
    (h.sift_up_push start pos).1.data.length = h.data.length ∧
    (h.sift_up_push start pos).1.bit.length = h.bit.length := by
  obtain ⟨g1, g2⟩ := supGo_len pos start pos h.data.length (getE h.data pos) h.data h.bit pos
  exact ⟨by simp [WeakHeap.sift_up_push, g1], by simp [WeakHeap.sift_up_push, g2]⟩

theorem sift_up_len (h : WeakHeap α) (start pos : Nat) :
    (h.sift_up start pos).data.length = h.data.length ∧
    (h.sift_up start pos).bit.length = h.bit.length := by
  by_cases hcmp : getE h.data (dAncCur h.bit start pos / 2) < getE h.data pos
  · have hres : h.sift_up start pos = ⟨swapL h.data (dAncCur h.bit start pos / 2) pos,
        if 2 * pos - 1 < h.data.length then h.bit.set pos (!(h.bit.getD pos false))
        else h.bit⟩ := by
      simp [WeakHeap.sift_up, hcmp]
    rw [hres]
    constructor
    · simp
    · split <;> simp
  · have hres : h.sift_up start pos = h := by simp [WeakHeap.sift_up, hcmp]
    rw [hres]
    exact ⟨rfl, rfl⟩

theorem sdrAscend_len : ∀ (pos : Nat) (start : Nat) (d : List α) (b : List Bool),
    (WeakHeap.sdrAscend start d b pos).1.length = d.length ∧
    (WeakHeap.sdrAscend start d b pos).2.length = b.length := by
  intro pos
  induction pos using Nat.strong_induction_on with
  | _ pos ih =>
    intro start d b
    rw [WeakHeap.sdrAscend]
    by_cases hp : start < pos
    · rw [dif_pos hp]
      have hlt : pos / 2 < pos := Nat.div_lt_self (by omega) one_lt_two
      by_cases hcmp : getE d start < getE d pos
      · rw [if_pos hcmp]
        obtain ⟨g1, g2⟩ := ih _ hlt start (swapL d start pos)
          (b.set pos (!(b.getD pos false)))
        exact ⟨by rw [g1]; simp, by rw [g2]; simp⟩
      · rw [if_neg hcmp]
        exact ih _ hlt start d b
    · rw [dif_neg hp]
      exact ⟨rfl, rfl⟩

theorem sift_down_range_len (h : WeakHeap α) (start e : Nat) :
    (h.sift_down_range start e).data.length = h.data.length ∧
    (h.sift_down_range start e).bit.length = h.bit.length := by
  unfold WeakHeap.sift_down_range
  split
  · exact ⟨rfl, rfl⟩
  · exact sdrAscend_len _ start h.data h.bit

theorem sift_down_len (h : WeakHeap α) (pos : Nat) :
    (h.sift_down pos).data.length = h.data.length ∧
    (h.sift_down pos).bit.length = h.bit.length := by
  unfold WeakHeap.sift_down
  exact sift_down_range_len h pos h.data.length

theorem foldl_sup_len (l : List Nat) : ∀ (h : WeakHeap α),
    (l.foldl (fun acc i => (acc.sift_up_push 0 i).1) h).data.length = h.data.length ∧
    (l.foldl (fun acc i => (acc.sift_up_push 0 i).1) h).bit.length = h.bit.length := by
  induction l with
  | nil =>
    intro h
    exact ⟨rfl, rfl⟩
  | cons i t iht =>
    intro h
    rw [List.foldl_cons]
    obtain ⟨g1, g2⟩ := iht ((h.sift_up_push 0 i).1)
    obtain ⟨g3, g4⟩ := sift_up_push_len h 0 i
    exact ⟨by rw [g1, g3], by rw [g2, g4]⟩

theorem rebuild_tail_len (h : WeakHeap α) (start : Nat) :
    (h.rebuild_tail start).data.length = h.data.length ∧
    (h.rebuild_tail start).bit.length = h.bit.length := by
  unfold WeakHeap.rebuild_tail
  split
  · exact ⟨rfl, rfl⟩
  · exact foldl_sup_len (List.range' start (h.data.length - start)) h

theorem push_len (h : WeakHeap α) (x : α) :
    (h.push x).data.length = h.data.length + 1 ∧
    (h.push x).bit.length = h.bit.length + 1 := by
  by_cases h0 : h.data.length = 0
  · have hres : h.push x = ⟨h.data ++ [x], h.bit ++ [false]⟩ := by
      simp [WeakHeap.push, h0]
    rw [hres]
    exact ⟨by simp, by simp⟩
  · have hres : h.push x =
        ((⟨h.data ++ [x], h.bit ++ [false]⟩ : WeakHeap α).sift_up_push 0 h.data.length).1 := by
      simp [WeakHeap.push, h0]
    rw [hres]
    obtain ⟨g1, g2⟩ := sift_up_push_len (⟨h.data ++ [x], h.bit ++ [false]⟩ : WeakHeap α)
      0 h.data.length
    exact ⟨by rw [g1]; simp, by rw [g2]; simp⟩

theorem pop_len (h : WeakHeap α) :
    (h.pop).2.data.length = h.data.length - 1 ∧
    (h.pop).2.bit.length = h.bit.length - 1 := by
  unfold WeakHeap.pop
  cases hlast : h.data.getLast? with
  | none =>
    have hdn : h.data = [] := List.getLast?_eq_none_iff.mp hlast
    simp [hdn]
  | some lastv =>
    simp only []
    split
    · obtain ⟨g1, g2⟩ := sift_down_len
        (⟨(h.data.dropLast).set 0 lastv, h.bit.dropLast⟩ : WeakHeap α) 0
      exact ⟨by rw [g1]; simp, by rw [g2]; simp⟩
    · exact ⟨by simp, by simp⟩

theorem pushpop_len (h : WeakHeap α) (x : α) :
    (h.pushpop x).2.data.length = h.data.length ∧
    (h.pushpop x).2.bit.length = h.bit.length := by
  unfold WeakHeap.pushpop
  split
  · exact ⟨rfl, rfl⟩
  · split
    · exact ⟨rfl, rfl⟩
    · obtain ⟨g1, g2⟩ := sift_down_len (⟨h.data.set 0 x, h.bit⟩ : WeakHeap α) 0
      exact ⟨by rw [g1]; simp, by rw [g2]⟩

/-! ### Repeated popping -/

theorem pop_some_lt (h : WeakHeap α) (x : α) (h' : WeakHeap α)
    (hp : h.pop = (some x, h')) : h'.data.length < h.data.length := by
  by_cases hd : h.data = []
  · exfalso
    have : h.pop = (none, ⟨h.data, h.bit.dropLast⟩) := by
      simp [WeakHeap.pop, hd]
    rw [this] at hp
    simp at hp
  · have hL : 1 ≤ h.data.length := List.length_pos.mpr hd
    have h2 : h'.data.length = h.data.length - 1 := by
      have := (pop_len h).1
      rw [hp] at this
      exact this
    omega

/-- The sequence of values obtained by popping until the heap signals
absence. -/
def popList (h : WeakHeap α) : List α :=
  match hp : h.pop with
  | (none, _) => []
  | (some x, h') => x :: popList h'
termination_by h.data.length
decreasing_by
  exact pop_some_lt h x h' hp

theorem popList_spec (h : WeakHeap α) (hInv : WHInv h) :
    (popList h).length = h.data.length ∧ (popList h).Perm h.data ∧
    List.Pairwise (· ≥ ·) (popList h) := by
  generalize hn : h.data.length = n
  induction n using Nat.strong_induction_on generalizing h with
  | _ n ih =>
    by_cases hd : h.data = []
    · have hres : h.pop = (none, ⟨h.data, h.bit.dropLast⟩) := by
        simp [WeakHeap.pop, hd]
      have hplEmpty : popList h = [] := by
        rw [popList, hres]
      have hn0 : n = 0 := by
        rw [← hn, hd]
        rfl
      rw [hplEmpty, hd, hn0]
      simp
    · obtain ⟨p1, p2, p3, p4, p5⟩ := pop_spec h hInv hd
      obtain ⟨x, h', hp⟩ : ∃ x h', h.pop = (some x, h') := by
        cases hpp : h.pop with
        | mk fst snd =>
          cases fst with
          | none => rw [hpp] at p1; simp at p1
          | some y => exact ⟨y, snd, rfl⟩
      have hx : x = getE h.data 0 := by
        rw [hp] at p1
        simpa using p1
      have hh' : h' = (h.pop).2 := by rw [hp]
      have hlen' : h'.data.length = n - 1 := by rw [hh', p3, hn]
      have hL : 1 ≤ h.data.length := List.length_pos.mpr hd
      obtain ⟨q1, q2, q3⟩ := ih (n - 1) (by omega) h' (by rw [hh']; exact p2) hlen'
      rw [popList, hp]
      refine ⟨by simp [q1, hlen']; omega, ?_, ?_⟩
      · have hperm : (x :: popList h').Perm (x :: h'.data) := List.Perm.cons x q2
        refine hperm.trans ?_
        rw [hx, hh']
        exact p5
      · refine List.pairwise_cons.mpr ⟨?_, q3⟩
        intro y hy
        have hy1 : y ∈ h'.data := (q2.mem_iff).mp hy
        have hy2 : y ∈ h.data := by
          rw [hh'] at hy1
          exact (p5.mem_iff).mp (List.mem_cons_of_mem _ hy1)
        rw [hx]
        exact whi_le_root h hInv y hy2

/-! ### States reachable through the public constructors and operations -/

/-- Heaps built by the public constructors and mutated by `push`, `pop`,
`pushpop` and `append`. -/
inductive Reachable : WeakHeap α → Prop
  | new : Reachable WeakHeap.new
  | withCap (n : Nat) : Reachable (WeakHeap.with_capacity n)
  | ofVec (v : List α) : Reachable (WeakHeap.fromVec v)
  | push {h : WeakHeap α} (x : α) : Reachable h → Reachable (h.push x)
  | pop {h : WeakHeap α} : Reachable h → Reachable (h.pop).2
  | pushpop {h : WeakHeap α} (x : α) : Reachable h → Reachable (h.pushpop x).2
  | appendFst {a b : WeakHeap α} : Reachable a → Reachable b →
      Reachable (WeakHeap.append a b).1
  | appendSnd {a b : WeakHeap α} : Reachable a → Reachable b →
      Reachable (WeakHeap.append a b).2

theorem whinv_empty : WHInv (⟨[], []⟩ : WeakHeap α) := by
  refine ⟨rfl, ?_⟩
  intro j hj hj1
  simp at hj

/-- Every reachable heap satisfies the structural invariant. -/
theorem reachable_whinv (h : WeakHeap α) (hr : Reachable h) : WHInv h := by
  induction hr with
  | new => exact whinv_empty
  | withCap n => exact whinv_empty
  | ofVec v => exact (fromVec_spec v).1
  | push x hr ih => exact (push_spec _ x ih).1
  | pop hr ih =>
    rename_i g
    by_cases hd : g.data = []
    · have hres : g.pop = (none, ⟨g.data, g.bit.dropLast⟩) := by
        simp [WeakHeap.pop, hd]
      rw [hres]
      refine ⟨?_, ?_⟩
      · have : g.bit.length = 0 := by
          have := ih.1
          rw [hd] at this
          simpa using this.symm
        have hb : g.bit = [] := List.length_eq_zero.mp this
        rw [hd, hb]
        rfl
      · intro j hj hj1
        rw [hd] at hj
        simp at hj
    · exact (pop_spec g ih hd).2.1
  | pushpop x hr ih =>
    rename_i g
    by_cases hd : g.data = []
    · rw [pushpop_empty g x hd]
      exact ih
    · by_cases hgt : getE g.data 0 < x
      · rw [pushpop_big g x hd hgt]
        exact ih
      · exact (pushpop_small g x ih hd hgt).2.1
  | appendFst hra hrb iha ihb => exact (append_spec _ _ iha ihb).1
  | appendSnd hra hrb iha ihb =>
    rename_i a b
    have hres : (WeakHeap.append a b).2 = (⟨[], []⟩ : WeakHeap α) := by
      unfold WeakHeap.append
      rfl
    rw [hres]
    exact whinv_empty

/-- Two valid heaps holding the same multiset have equal-valued roots. -/
theorem root_eq_of_perm (h1 h2 : WeakHeap α) (hi1 : WHInv h1) (hi2 : WHInv h2)
    (hne : h1.data ≠ []) (hperm : h1.data.Perm h2.data) :
    getE h1.data 0 = getE h2.data 0 := by
  have hne2 : h2.data ≠ [] := by
    intro hc
    rw [hc] at hperm
    exact hne hperm.eq_nil
  have hle1 : getE h1.data 0 ≤ getE h2.data 0 :=
    whi_le_root h2 hi2 _ (hperm.mem_iff.mp (root_mem h1.data hne))
  have hle2 : getE h2.data 0 ≤ getE h1.data 0 :=
    whi_le_root h1 hi1 _ (hperm.mem_iff.mpr (root_mem h2.data hne2))
  exact le_antisymm hle1 hle2

theorem peek_eq_of_perm (h1 h2 : WeakHeap α) (hi1 : WHInv h1) (hi2 : WHInv h2)
    (hne : h1.data ≠ []) (hperm : h1.data.Perm h2.data) : h1.peek = h2.peek := by
  have hne2 : h2.data ≠ [] := by
    intro hc
    rw [hc] at hperm
    exact hne hperm.eq_nil
  unfold WeakHeap.peek
  rw [head?_getE h1.data hne, head?_getE h2.data hne2,
    root_eq_of_perm h1 h2 hi1 hi2 hne hperm]

/-- Precondition of `sift_down_range(start, end)` on an array of length
`len`: the window is non-empty (in particular `end` is never 0) and lies
inside the array. -/
def sdrPre (start e len : Nat) : Prop := 0 < e ∧ start < e ∧ e ≤ len

/-! ### The claims -/

/-- C1: building a weak heap from any vector (all reverse bits false, then
`rebuild`) and converting it to a sorted vector yields exactly the input
elements in non-decreasing order, with multiplicities preserved. -/
theorem claim_C1 (v : List α) :
    List.Pairwise (· ≤ ·) ((WeakHeap.fromVec v).into_sorted_vec) ∧
    ((WeakHeap.fromVec v).into_sorted_vec).Perm v := by
  obtain ⟨hInv, hperm, hlen, hblen⟩ := fromVec_spec v
  obtain ⟨s1, s2⟩ := into_sorted_vec_spec (WeakHeap.fromVec v) hInv
  exact ⟨s2, s1.trans hperm⟩

/-- C2: after any sequence of `push`, `pop`, `pushpop` and `append`
operations starting from the public constructors, the weak-heap ordering
invariant holds: every non-root index is at most its bit-chased
distinguished ancestor. -/
theorem claim_C2 (h : WeakHeap α) (hr : Reachable h) :
    PrefixInv h.data h.bit h.data.length :=
  (reachable_whinv h hr).2

unseal dAncCur WeakHeap.supGo WeakHeap.sdrDescend WeakHeap.sdrAscend in
theorem claim_C2_witness :
    PrefixInv ((((WeakHeap.fromVec ([3, 1, 4, 1, 5] : List Int)).push 2).pop.2.pushpop
      6).2).data
      ((((WeakHeap.fromVec ([3, 1, 4, 1, 5] : List Int)).push 2).pop.2.pushpop 6).2).bit
      ((((WeakHeap.fromVec ([3, 1, 4, 1, 5] : List Int)).push 2).pop.2.pushpop
        6).2).data.length :=
  claim_C2 _ (Reachable.pushpop 6 (Reachable.pop (Reachable.push 2 (Reachable.ofVec _))))

/-- C3: on any valid heap, `pushpop x` is observationally equivalent to
`push x` followed by `pop`: equal returned value, and resulting heaps with
equal content (as multisets), equal size, and equal `peek`. -/
theorem claim_C3 (h : WeakHeap α) (x : α) (hInv : WHInv h) :
    ((h.push x).pop.1 = some ((h.pushpop x).1)) ∧
    ((h.pushpop x).2.data).Perm ((h.push x).pop.2.data) ∧
    (h.pushpop x).2.data.length = (h.push x).pop.2.data.length ∧
    (h.pushpop x).2.peek = (h.push x).pop.2.peek := by
  obtain ⟨hpInv, hpPerm, hpLen, hpBLen⟩ := push_spec h x hInv
  set P := h.push x with hPdef
  have hPne : P.data ≠ [] := by
    intro hc
    rw [hc] at hpLen
    simp at hpLen
  obtain ⟨q1, q2, q3, q4, q5⟩ := pop_spec P hpInv hPne
  by_cases hd : h.data = []
  · rw [pushpop_empty h x hd]
    dsimp only
    have hPx : ∀ y, y ∈ P.data → y = x := by
      intro y hy
      have hm : y ∈ h.data ++ [x] := hpPerm.mem_iff.mp hy
      rw [hd] at hm
      simpa using hm
    have hroot : getE P.data 0 = x := hPx _ (root_mem P.data hPne)
    have hQempty : P.pop.2.data = [] := by
      apply List.length_eq_zero.mp
      have hh0 : h.data.length = 0 := by rw [hd]; rfl
      omega
    refine ⟨by rw [q1, hroot], ?_, ?_, ?_⟩
    · rw [hQempty, hd]
    · rw [hQempty, hd]
    · unfold WeakHeap.peek
      rw [hQempty, hd]
  · have hdL : 1 ≤ h.data.length := List.length_pos.mpr hd
    by_cases hgt : getE h.data 0 < x
    · -- the new element is strictly larger: pushpop hands it straight back
      rw [pushpop_big h x hd hgt]
      dsimp only
      have hx_mem : x ∈ P.data := hpPerm.mem_iff.mpr (by simp)
      have h1 : x ≤ getE P.data 0 := whi_le_root P hpInv x hx_mem
      have h2 : getE P.data 0 ≤ x := by
        have hm : getE P.data 0 ∈ h.data ++ [x] := hpPerm.mem_iff.mp (root_mem P.data hPne)
        rcases List.mem_append.mp hm with hmem | hmem
        · exact le_of_lt (lt_of_le_of_lt (whi_le_root h hInv _ hmem) hgt)
        · simp at hmem
          exact le_of_eq hmem
      have hrootP : getE P.data 0 = x := le_antisymm h2 h1
      have hQperm : h.data.Perm P.pop.2.data := by
        have c1 : (x :: P.pop.2.data).Perm (h.data ++ [x]) := by
          have c0 : (getE P.data 0 :: P.pop.2.data).Perm (h.data ++ [x]) := q5.trans hpPerm
          rw [hrootP] at c0
          exact c0
        have c2 : (x :: P.pop.2.data).Perm (x :: h.data) :=
          c1.trans (List.perm_append_singleton x h.data)
        exact (c2.cons_inv).symm
      refine ⟨by rw [q1, hrootP], hQperm, by omega, ?_⟩
      exact peek_eq_of_perm h P.pop.2 hInv q2 hd hQperm
    · -- the new element is at most the maximum: it is sifted in
      obtain ⟨pp1, pp2, pp3, pp4, pp5⟩ := pushpop_small h x hInv hd hgt
      have hrh_mem : getE h.data 0 ∈ P.data :=
        hpPerm.mem_iff.mpr (List.mem_append.mpr (Or.inl (root_mem h.data hd)))
      have h1 : getE h.data 0 ≤ getE P.data 0 := whi_le_root P hpInv _ hrh_mem
      have h2 : getE P.data 0 ≤ getE h.data 0 := by
        have hm : getE P.data 0 ∈ h.data ++ [x] := hpPerm.mem_iff.mp (root_mem P.data hPne)
        rcases List.mem_append.mp hm with hmem | hmem
        · exact whi_le_root h hInv _ hmem
        · simp at hmem
          rw [hmem]
          exact not_lt.mp hgt
      have hrootP : getE P.data 0 = getE h.data 0 := le_antisymm h2 h1
      obtain ⟨a, t, hat⟩ : ∃ a t, h.data = a :: t := by
        cases hD : h.data with
        | nil => exact absurd hD hd
        | cons a t => exact ⟨a, t, rfl⟩
      have haroot : a = getE h.data 0 := by rw [hat]; rfl
      have hsetx : h.data.set 0 x = x :: t := by rw [hat]; rfl
      have hset_perm : (getE h.data 0 :: h.data.set 0 x).Perm (h.data ++ [x]) := by
        rw [hsetx]
        conv_rhs => rw [hat]
        rw [← haroot]
        exact List.Perm.cons a ((List.perm_append_singleton x t).symm)
      have hQperm : P.pop.2.data.Perm (h.data.set 0 x) := by
        have c1 : (getE h.data 0 :: P.pop.2.data).Perm (h.data ++ [x]) := by
          rw [← hrootP]
          exact q5.trans hpPerm
        have c2 : (getE h.data 0 :: P.pop.2.data).Perm (getE h.data 0 :: h.data.set 0 x) :=
          c1.trans hset_perm.symm
        exact c2.cons_inv
      have hmain_perm : (h.pushpop x).2.data.Perm (P.pop.2.data) :=
        pp3.trans hQperm.symm
      refine ⟨by rw [q1, hrootP, pp1], hmain_perm, by omega, ?_⟩
      refine peek_eq_of_perm (h.pushpop x).2 P.pop.2 pp2 q2 ?_ hmain_perm
      intro hc
      have : (h.pushpop x).2.data.length = 0 := by rw [hc]; rfl
      omega

unseal dAncCur WeakHeap.supGo WeakHeap.sdrDescend WeakHeap.sdrAscend in
theorem claim_C3_witness :
    ((WeakHeap.fromVec ([1, 3, 2] : List Int)).push 0).pop.1 =
      some (((WeakHeap.fromVec ([1, 3, 2] : List Int)).pushpop 0).1) ∧
    (((WeakHeap.fromVec ([1, 3, 2] : List Int)).pushpop 0).2.data).Perm
      (((WeakHeap.fromVec ([1, 3, 2] : List Int)).push 0).pop.2.data) ∧
    ((WeakHeap.fromVec ([1, 3, 2] : List Int)).pushpop 0).2.data.length =
      ((WeakHeap.fromVec ([1, 3, 2] : List Int)).push 0).pop.2.data.length ∧
    ((WeakHeap.fromVec ([1, 3, 2] : List Int)).pushpop 0).2.peek =
      ((WeakHeap.fromVec ([1, 3, 2] : List Int)).push 0).pop.2.peek :=
  claim_C3 (WeakHeap.fromVec ([1, 3, 2] : List Int)) 0 (by decide)

/-- C4: on a valid non-empty heap, pushpop of an item at least the current
maximum returns the item and leaves the heap untouched (both `data` and
`bit` are exactly as before). -/
theorem claim_C4 (h : WeakHeap α) (x : α) (hInv : WHInv h) (hne : h.data ≠ [])
    (hge : getE h.data 0 ≤ x) : h.pushpop x = (x, h) := by
  by_cases hgt : getE h.data 0 < x
  · exact pushpop_big h x hne hgt
  · have hxeq : x = getE h.data 0 := le_antisymm (not_lt.mp hgt) hge
    have hL : h.data.length ≠ 0 := by
      have := List.length_pos.mpr hne
      omega
    have hres : h.pushpop x =
        (getE h.data 0, WeakHeap.sift_down (⟨h.data.set 0 x, h.bit⟩ : WeakHeap α) 0) := by
      simp [WeakHeap.pushpop, hL, hgt]
    have hset : h.data.set 0 x = h.data := by
      rw [hxeq]
      exact set_getE_self h.data 0 (by omega)
    have heta : (⟨h.data, h.bit⟩ : WeakHeap α) = h := rfl
    rw [hres, hset, heta]
    have hnoop : WeakHeap.sift_down h 0 = h := by
      unfold WeakHeap.sift_down
      exact sift_down_range_noop h.data h.bit h.data.length (by omega)
        (fun k hk => prefixInv_le_root h.data h.bit h.data.length hInv.2 k hk)
    rw [hnoop, hxeq]

unseal dAncCur WeakHeap.supGo WeakHeap.sdrDescend WeakHeap.sdrAscend in
theorem claim_C4_witness :
    WeakHeap.pushpop (WeakHeap.fromVec ([1, 2] : List Int)) 5 =
      (5, WeakHeap.fromVec ([1, 2] : List Int)) :=
  claim_C4 (WeakHeap.fromVec ([1, 2] : List Int)) 5 (by decide) (by decide) (by decide)

/-- C5: `append` moves everything into the kept operand — its multiset is
the union of both inputs — drains the other operand to the observable empty
state, and sorting the result yields the merged inputs in ascending
order. -/
theorem claim_C5 (a b : WeakHeap α) (ha : WHInv a) (hb : WHInv b) :
    ((WeakHeap.append a b).1.data).Perm (a.data ++ b.data) ∧
    (WeakHeap.append a b).2.data = [] ∧ (WeakHeap.append a b).2.bit = [] ∧
    ((WeakHeap.append a b).1.into_sorted_vec).Perm (a.data ++ b.data) ∧
    List.Pairwise (· ≤ ·) ((WeakHeap.append a b).1.into_sorted_vec) := by
  obtain ⟨g1, g2, g3, g4, g5, g6⟩ := append_spec a b ha hb
  obtain ⟨s1, s2⟩ := into_sorted_vec_spec (WeakHeap.append a b).1 g1
  exact ⟨g2, g5, g6, s1.trans g2, s2⟩

unseal dAncCur WeakHeap.supGo WeakHeap.sdrDescend WeakHeap.sdrAscend
  WeakHeap.intoSortedAux in
theorem claim_C5_witness :
    ((WeakHeap.append (WeakHeap.fromVec ([2, 7] : List Int))
        (WeakHeap.fromVec ([5, 1, 3] : List Int))).1.data).Perm
      ((WeakHeap.fromVec ([2, 7] : List Int)).data ++
        (WeakHeap.fromVec ([5, 1, 3] : List Int)).data) ∧
    (WeakHeap.append (WeakHeap.fromVec ([2, 7] : List Int))
      (WeakHeap.fromVec ([5, 1, 3] : List Int))).2.data = [] ∧
    (WeakHeap.append (WeakHeap.fromVec ([2, 7] : List Int))
      (WeakHeap.fromVec ([5, 1, 3] : List Int))).2.bit = [] ∧
    ((WeakHeap.append (WeakHeap.fromVec ([2, 7] : List Int))
        (WeakHeap.fromVec ([5, 1, 3] : List Int))).1.into_sorted_vec).Perm
      ((WeakHeap.fromVec ([2, 7] : List Int)).data ++
        (WeakHeap.fromVec ([5, 1, 3] : List Int)).data) ∧
    List.Pairwise (· ≤ ·)
      ((WeakHeap.append (WeakHeap.fromVec ([2, 7] : List Int))
        (WeakHeap.fromVec ([5, 1, 3] : List Int))).1.into_sorted_vec) :=
  claim_C5 (WeakHeap.fromVec ([2, 7] : List Int))
    (WeakHeap.fromVec ([5, 1, 3] : List Int)) (by decide) (by decide)

/-- C6: at every reachable heap state, `peek` signals absence exactly when
the heap is empty, and otherwise returns an element of the contents that
bounds every element from above (i.e. the maximum). -/
theorem claim_C6 (h : WeakHeap α) (hr : Reachable h) :
    (h.peek = none ↔ h.data = []) ∧
    ∀ m, h.peek = some m → m ∈ h.data ∧ ∀ x ∈ h.data, x ≤ m := by
  have hInv := reachable_whinv h hr
  constructor
  · unfold WeakHeap.peek
    exact List.head?_eq_none_iff
  · intro m hm
    have hne : h.data ≠ [] := by
      intro hc
      unfold WeakHeap.peek at hm
      rw [hc] at hm
      simp at hm
    have hget : h.peek = some (getE h.data 0) := head?_getE h.data hne
    rw [hget] at hm
    have hmeq : m = getE h.data 0 := (Option.some_inj.mp hm).symm
    subst hmeq
    exact ⟨root_mem h.data hne, fun x hx => whi_le_root h hInv x hx⟩

unseal dAncCur WeakHeap.supGo WeakHeap.sdrDescend WeakHeap.sdrAscend in
theorem claim_C6_witness :
    (((WeakHeap.fromVec ([4, 9, 2] : List Int)).push 11).peek = none ↔
      ((WeakHeap.fromVec ([4, 9, 2] : List Int)).push 11).data = []) ∧
    ∀ m, ((WeakHeap.fromVec ([4, 9, 2] : List Int)).push 11).peek = some m →
      m ∈ ((WeakHeap.fromVec ([4, 9, 2] : List Int)).push 11).data ∧
      ∀ x ∈ ((WeakHeap.fromVec ([4, 9, 2] : List Int)).push 11).data, x ≤ m :=
  claim_C6 _ (Reachable.push 11 (Reachable.ofVec [4, 9, 2]))

/-- C7: popping a valid heap repeatedly yields exactly as many values as
the heap holds before the first absence, in non-increasing order, and the
values are a permutation of the original contents. -/
theorem claim_C7 (h : WeakHeap α) (hInv : WHInv h) :
    (popList h).length = h.data.length ∧ (popList h).Perm h.data ∧
    List.Pairwise (· ≥ ·) (popList h) :=
  popList_spec h hInv

unseal dAncCur WeakHeap.supGo WeakHeap.sdrDescend WeakHeap.sdrAscend in
theorem claim_C7_witness :
    (popList (WeakHeap.fromVec ([3, 1, 4, 1, 5] : List Int))).length =
      (WeakHeap.fromVec ([3, 1, 4, 1, 5] : List Int)).data.length ∧
    (popList (WeakHeap.fromVec ([3, 1, 4, 1, 5] : List Int))).Perm
      (WeakHeap.fromVec ([3, 1, 4, 1, 5] : List Int)).data ∧
    List.Pairwise (· ≥ ·) (popList (WeakHeap.fromVec ([3, 1, 4, 1, 5] : List Int))) :=
  claim_C7 (WeakHeap.fromVec ([3, 1, 4, 1, 5] : List Int)) (by decide)

theorem append_len (a b : WeakHeap α) :
    (WeakHeap.append a b).1.data.length = a.data.length + b.data.length ∧
    (WeakHeap.append a b).1.bit.length = a.bit.length + b.bit.length ∧
    (WeakHeap.append a b).2.data = [] ∧ (WeakHeap.append a b).2.bit = [] := by
  by_cases hc : a.data.length < b.data.length
  · have hres : WeakHeap.append a b =
        (WeakHeap.rebuild_tail (⟨b.data ++ a.data, b.bit ++ a.bit⟩ : WeakHeap α)
          b.data.length, (⟨[], []⟩ : WeakHeap α)) := by
      simp [WeakHeap.append, hc]
    rw [hres]
    obtain ⟨g1, g2⟩ := rebuild_tail_len
      (⟨b.data ++ a.data, b.bit ++ a.bit⟩ : WeakHeap α) b.data.length
    refine ⟨?_, ?_, rfl, rfl⟩
    · rw [g1]; simp; omega
    · rw [g2]; simp; omega
  · have hres : WeakHeap.append a b =
        (WeakHeap.rebuild_tail (⟨a.data ++ b.data, a.bit ++ b.bit⟩ : WeakHeap α)
          a.data.length, (⟨[], []⟩ : WeakHeap α)) := by
      simp [WeakHeap.append, hc]
    rw [hres]
    obtain ⟨g1, g2⟩ := rebuild_tail_len
      (⟨a.data ++ b.data, a.bit ++ b.bit⟩ : WeakHeap α) a.data.length
    refine ⟨?_, ?_, rfl, rfl⟩
    · rw [g1]; simp
    · rw [g2]; simp

theorem append_vec_len (a : WeakHeap α) (v : List α) :
    (WeakHeap.append_vec a v).1.data.length = a.data.length + v.length ∧
    (WeakHeap.append_vec a v).1.bit.length = a.bit.length + v.length := by
  obtain ⟨g1, g2⟩ := rebuild_tail_len
    (⟨a.data ++ v, a.bit ++ List.replicate v.length false⟩ : WeakHeap α) a.data.length
  unfold WeakHeap.append_vec
  dsimp only
  refine ⟨?_, ?_⟩
  · rw [g1]; simp
  · rw [g2]; simp

theorem extendList_bal (l : List α) : ∀ (h : WeakHeap α),
    h.data.length = h.bit.length →
    (WeakHeap.extendList h l).data.length = (WeakHeap.extendList h l).bit.length := by
  induction l with
  | nil => exact fun h hb => hb
  | cons x xs ih =>
    intro h hb
    have hstep : WeakHeap.extendList h (x :: xs) =
        WeakHeap.extendList (h.push x) xs := rfl
    rw [hstep]
    obtain ⟨g1, g2⟩ := push_len h x
    exact ih (h.push x) (by omega)

/-- C8: every public operation preserves `len(data) = len(bit)`: the empty
constructors, building from a vector, `push`, `pop` (also on an empty
heap), `pushpop`, both results of `append`, `append_vec`, `extend`,
`drain`, and `clear`. -/
theorem claim_C8 (h g : WeakHeap α) (v : List α) (x : α) (n : Nat)
    (hb : h.data.length = h.bit.length) (hg : g.data.length = g.bit.length) :
    ((WeakHeap.new : WeakHeap α).data.length = (WeakHeap.new : WeakHeap α).bit.length) ∧
    ((WeakHeap.with_capacity n : WeakHeap α).data.length =
      (WeakHeap.with_capacity n : WeakHeap α).bit.length) ∧
    ((WeakHeap.fromVec v).data.length = (WeakHeap.fromVec v).bit.length) ∧
    ((h.push x).data.length = (h.push x).bit.length) ∧
    ((h.pop).2.data.length = (h.pop).2.bit.length) ∧
    ((h.pushpop x).2.data.length = (h.pushpop x).2.bit.length) ∧
    ((WeakHeap.append h g).1.data.length = (WeakHeap.append h g).1.bit.length) ∧
    ((WeakHeap.append h g).2.data.length = (WeakHeap.append h g).2.bit.length) ∧
    ((WeakHeap.append_vec h v).1.data.length = (WeakHeap.append_vec h v).1.bit.length) ∧
    ((WeakHeap.extendList h v).data.length = (WeakHeap.extendList h v).bit.length) ∧
    ((h.drain).2.data.length = (h.drain).2.bit.length) ∧
    (h.clear.data.length = h.clear.bit.length) := by
  obtain ⟨f1, f2, f3, f4⟩ := fromVec_spec v
  obtain ⟨p1, p2⟩ := push_len h x
  obtain ⟨o1, o2⟩ := pop_len h
  obtain ⟨u1, u2⟩ := pushpop_len h x
  obtain ⟨a1, a2, a3, a4⟩ := append_len h g
  obtain ⟨w1, w2⟩ := append_vec_len h v
  refine ⟨rfl, rfl, by omega, by omega, by omega, by omega, ?_, ?_,
    by omega, extendList_bal v h hb, rfl, rfl⟩
  · omega
  · rw [a3, a4]
    rfl

theorem claim_C8_witness :
    ((WeakHeap.new : WeakHeap Int).data.length = (WeakHeap.new : WeakHeap Int).bit.length) ∧
    ((WeakHeap.with_capacity 3 : WeakHeap Int).data.length =
      (WeakHeap.with_capacity 3 : WeakHeap Int).bit.length) ∧
    ((WeakHeap.fromVec ([5, 4] : List Int)).data.length =
      (WeakHeap.fromVec ([5, 4] : List Int)).bit.length) ∧
    (((⟨[2, 1], [false, true]⟩ : WeakHeap Int).push 7).data.length =
      ((⟨[2, 1], [false, true]⟩ : WeakHeap Int).push 7).bit.length) ∧
    (((⟨[2, 1], [false, true]⟩ : WeakHeap Int).pop).2.data.length =
      ((⟨[2, 1], [false, true]⟩ : WeakHeap Int).pop).2.bit.length) ∧
    (((⟨[2, 1], [false, true]⟩ : WeakHeap Int).pushpop 7).2.data.length =
      ((⟨[2, 1], [false, true]⟩ : WeakHeap Int).pushpop 7).2.bit.length) ∧
    ((WeakHeap.append (⟨[2, 1], [false, true]⟩ : WeakHeap Int)
        (⟨[3], [false]⟩ : WeakHeap Int)).1.data.length =
      (WeakHeap.append (⟨[2, 1], [false, true]⟩ : WeakHeap Int)
        (⟨[3], [false]⟩ : WeakHeap Int)).1.bit.length) ∧
    ((WeakHeap.append (⟨[2, 1], [false, true]⟩ : WeakHeap Int)
        (⟨[3], [false]⟩ : WeakHeap Int)).2.data.length =
      (WeakHeap.append (⟨[2, 1], [false, true]⟩ : WeakHeap Int)
        (⟨[3], [false]⟩ : WeakHeap Int)).2.bit.length) ∧
    ((WeakHeap.append_vec (⟨[2, 1], [false, true]⟩ : WeakHeap Int)
        ([5, 4] : List Int)).1.data.length =
      (WeakHeap.append_vec (⟨[2, 1], [false, true]⟩ : WeakHeap Int)
        ([5, 4] : List Int)).1.bit.length) ∧
    ((WeakHeap.extendList (⟨[2, 1], [false, true]⟩ : WeakHeap Int)
        ([5, 4] : List Int)).data.length =
      (WeakHeap.extendList (⟨[2, 1], [false, true]⟩ : WeakHeap Int)
        ([5, 4] : List Int)).bit.length) ∧
    (((⟨[2, 1], [false, true]⟩ : WeakHeap Int).drain).2.data.length =
      ((⟨[2, 1], [false, true]⟩ : WeakHeap Int).drain).2.bit.length) ∧
    ((⟨[2, 1], [false, true]⟩ : WeakHeap Int).clear.data.length =
      (⟨[2, 1], [false, true]⟩ : WeakHeap Int).clear.bit.length) :=
  claim_C8 (⟨[2, 1], [false, true]⟩ : WeakHeap Int) (⟨[3], [false]⟩ : WeakHeap Int)
    ([5, 4] : List Int) 7 3 rfl rfl

/-- C9: `sift_down_range(start, 1)` is the identity; every internal call —
from `pop` (whose empty path avoids the sift entirely), from `pushpop`,
from the mutable-peek release, and from the sorting loop — satisfies the
precondition `0 < end`, `start < end`, `end ≤ len`; and under that
precondition the descent position stays inside `[1, end)`, so the indices
the sift reads are in bounds. -/
theorem claim_C9 (h : WeakHeap α) (start e : Nat) :
    (WeakHeap.sift_down_range h start 1 = h) ∧
    (h.data.dropLast.length ≠ 0 →
      sdrPre 0 h.data.dropLast.length h.data.dropLast.length) ∧
    (h.data.length ≠ 0 → sdrPre 0 h.data.length h.data.length) ∧
    (2 ≤ e → e ≤ h.data.length → sdrPre 0 (e - 1) h.data.length) ∧
    (sdrPre start e h.data.length → e ≠ 1 →
      1 ≤ WeakHeap.sdrDescend h.bit e (max start 1) ∧
      WeakHeap.sdrDescend h.bit e (max start 1) < e) := by
  refine ⟨by simp [WeakHeap.sift_down_range], ?_, ?_, ?_, ?_⟩
  · intro hne
    exact ⟨by omega, by omega, le_refl _⟩
  · intro hne
    exact ⟨by omega, by omega, le_refl _⟩
  · intro h2 hle
    exact ⟨by omega, by omega, by omega⟩
  · rintro ⟨k1, k2, k3⟩ hne1
    refine ⟨sdrDescend_pos h.bit e (max start 1) (by omega), ?_⟩
    exact sdrDescend_lt h.bit e (max start 1) (by omega)

theorem claim_C9_witness :
    (WeakHeap.sift_down_range (⟨[5, 3, 4], [false, false, true]⟩ : WeakHeap Int) 0 1 =
      (⟨[5, 3, 4], [false, false, true]⟩ : WeakHeap Int)) ∧
    sdrPre 0 2 2 ∧ sdrPre 0 3 3 ∧ sdrPre 0 2 3 ∧
    (1 ≤ WeakHeap.sdrDescend [false, false, true] 3 (max 0 1) ∧
      WeakHeap.sdrDescend [false, false, true] 3 (max 0 1) < 3) := by
  obtain ⟨c1, c2, c3, c4, c5⟩ :=
    claim_C9 (⟨[5, 3, 4], [false, false, true]⟩ : WeakHeap Int) 0 3
  exact ⟨c1, c2 (by decide), c3 (by decide), c4 (by decide) (by decide),
    c5 ⟨by decide, by decide, by decide⟩ (by decide)⟩

/-- C10: for every non-empty reachable heap, the vector returned by
`into_vec` carries the maximum of the contents at index 0, although the
documentation promises only an arbitrary order. -/
theorem claim_C10 (h : WeakHeap α) (hr : Reachable h) (hne : h.into_vec ≠ []) :
    getE h.into_vec 0 ∈ h.into_vec ∧ ∀ x ∈ h.into_vec, x ≤ getE h.into_vec 0 := by
  have hInv := reachable_whinv h hr
  exact ⟨root_mem h.data hne, fun x hx => whi_le_root h hInv x hx⟩

unseal dAncCur WeakHeap.supGo WeakHeap.sdrDescend WeakHeap.sdrAscend in
theorem claim_C10_witness :
    getE ((WeakHeap.fromVec ([2, 5, 1] : List Int)).into_vec) 0 ∈
      (WeakHeap.fromVec ([2, 5, 1] : List Int)).into_vec ∧
    ∀ x ∈ (WeakHeap.fromVec ([2, 5, 1] : List Int)).into_vec,
      x ≤ getE ((WeakHeap.fromVec ([2, 5, 1] : List Int)).into_vec) 0 :=
  claim_C10 (WeakHeap.fromVec ([2, 5, 1] : List Int))
    (Reachable.ofVec [2, 5, 1]) (by decide)
